import Mathlib

/-!
Verification development for the ABS build orchestrator (zachwolfe/abs).

This file gives a shallow embedding in Lean 4 of the parts of the source that
the specification's claims are about:

* the edit-time oracle and the up-to-date predicate
  (`BuildEnvironment::edit_time`, `BuildEnvironment::should_build_artifacts_impl`,
  `BuildEnvironment::should_build_artifact` from `src/build.rs`),
* artifact path derivation (`BuildEnvironment::get_artifact_path`),
* the compile task's cache query and composed run
  (`CxxTask::previous_valid_run`, `TaskExt::run` from `src/task.rs`),
* the compiler output parser state machine and compile-flag realisation
  (`compile_cxx`, `CompileFlags::build` from `src/build_manager.rs`),
* the diagnostic deduplicator / warning-cache collector (the receiver loop in
  `CxxTask::run_guaranteed`, `src/task.rs`),
* C++ option compatibility and workspace adaptation (`src/proj_config.rs`),
* dependency graph accumulation (`accumulate_dependencies` from `src/main.rs`).

Machine integers (`u64` edit times) are modelled as `Nat`; the `u64::MAX`
sentinel is the explicit constant `U64_MAX`.  Filesystem paths are modelled as
lists of components; filesystem metadata is a function from paths to
`Option Nat` (`none` = file does not exist).  Rust's fallible I/O beyond
not-found errors is outside the model.
-/

/-- A filesystem path, as its list of components
(e.g. `src/hello/world.cpp` is `["src", "hello", "world.cpp"]`). -/
abbrev FsPath := List String

/-- The `u64::MAX` sentinel used by the source for missing dependencies. -/
def U64_MAX : Nat := 2 ^ 64 - 1

/-- The state behind `BuildEnvironment`'s edit-time queries: filesystem
metadata (last-write time per existing path) plus the memoisation cache
`file_edit_times`. -/
structure Oracle where
  fs : FsPath → Option Nat
  cache : List (FsPath × Nat)

/-- Cache lookup (`self.file_edit_times.get(path)`). -/
def lookupTime (cache : List (FsPath × Nat)) (p : FsPath) : Option Nat :=
  (cache.find? (fun e => decide (e.1 = p))).map (fun e => e.2)

/-- Cache invalidation (`self.file_edit_times.remove(path)`). -/
def removeTime (cache : List (FsPath × Nat)) (p : FsPath) : List (FsPath × Nat) :=
  cache.filter (fun e => decide (e.1 ≠ p))

/-- `BuildEnvironment::edit_time` (src/build.rs): on a cache hit return the
cached value; on a miss query the filesystem metadata, substituting `fallback`
when the file does not exist, and cache the result. -/
def editTime (st : Oracle) (p : FsPath) (fallback : Nat) : Nat × Oracle :=
  match lookupTime st.cache p with
  | some t => (t, st)
  | none =>
    let t := match st.fs p with
             | some time => time
             | none => fallback
    (t, { st with cache := (p, t) :: st.cache })

/-- Sequential edit-time queries over a list of paths (the `Vec` collected by
`should_build_artifacts_impl`), threading the oracle state. -/
def editTimesList (st : Oracle) (ps : List FsPath) (fallback : Nat) :
    List Nat × Oracle :=
  match ps with
  | [] => ([], st)
  | p :: rest =>
    let r1 := editTime st p fallback
    let r2 := editTimesList r1.2 rest fallback
    (r1.1 :: r2.1, r2.2)

/-- `Iterator::max().unwrap_or(0)` over `u64` values. -/
def maxOr0 : List Nat → Nat
  | [] => 0
  | t :: ts => ts.foldl Nat.max t

/-- `Iterator::min().unwrap_or(0)` over `u64` values. -/
def minOr0 : List Nat → Nat
  | [] => 0
  | t :: ts => ts.foldl Nat.min t

/-- `BuildEnvironment::should_build_artifacts_impl` (src/build.rs lines
442-474): query all dependency edit times with sentinel `u64::MAX`, all
filtered artifact edit times with sentinel `0`, answer
`newest_dependency > oldest_artifact`, and on a positive answer forget every
artifact path from the cache. -/
def should_build_artifacts_impl (st : Oracle) (dependencyPaths : List FsPath)
    (artifactPaths : List FsPath) (filter : FsPath → Bool) : Bool × Oracle :=
  let depsR := editTimesList st dependencyPaths U64_MAX
  let newestDependency := maxOr0 depsR.1
  let artsR := editTimesList depsR.2 (artifactPaths.filter filter) 0
  let oldestArtifact := minOr0 artsR.1
  if oldestArtifact < newestDependency then
    (true, { artsR.2 with cache := artifactPaths.foldl removeTime artsR.2.cache })
  else
    (false, artsR.2)

/-- `BuildEnvironment::should_build_artifact` (src/build.rs): the impl applied
to a single artifact with the trivial filter. -/
def should_build_artifact (st : Oracle) (dependencyPaths : List FsPath)
    (artifactPath : FsPath) : Bool × Oracle :=
  should_build_artifacts_impl st dependencyPaths [artifactPath] (fun _ => true)

/-- The claim-side reading of step 1 of the Up-to-date Predicate: the newest
dependency edit time, `0` for an empty dependency list. -/
def newestDepTime (st : Oracle) (deps : List FsPath) : Nat :=
  maxOr0 (editTimesList st deps U64_MAX).1

/-- The oracle state after the dependency queries of step 1. -/
def oracleAfterDeps (st : Oracle) (deps : List FsPath) : Oracle :=
  (editTimesList st deps U64_MAX).2

/-- The claim-side reading of step 2 of the Up-to-date Predicate: the oldest
edit time over the filtered artifacts, `0` for an empty (filtered) artifact
list. -/
def oldestArtTime (st : Oracle) (arts : List FsPath) (filter : FsPath → Bool) : Nat :=
  minOr0 (editTimesList st (arts.filter filter) 0).1

/-- Overriding the filesystem metadata at one path (used to state that a path
outside the dependency and artifact sets cannot influence the predicate). -/
def setFs (st : Oracle) (p : FsPath) (t : Option Nat) : Oracle :=
  { st with fs := fun q => if q = p then t else st.fs q }

/-- The dependency set `compile_directory` (src/build.rs lines 734-767) passes
to `should_build_artifact` for one source file in the non-WinUI case: the
header paths followed by the source itself
(`DependencyBuilder::default().files(header_paths) ... .file(path)`). -/
def compile_directory_dep_set (headerPaths : List FsPath) (src : FsPath) : List FsPath :=
  headerPaths ++ [src]

/-- The last-dot split of a reversed file-name character list: `some stemRev`
when the name has an extension in Rust's sense (a `.` with a non-empty part
before it), else `none`. -/
def findStemRev : List Char → Option (List Char)
  | [] => none
  | '.' :: rest => if rest.isEmpty then none else some rest
  | _ :: rest => findStemRev rest

/-- Rust's `PathBuf::set_extension` on a single file-name component: replace
the extension when one exists, else append `.ext`. -/
def setExtName (name ext : String) : String :=
  let r := name.data.reverse
  let stemRev := (findStemRev r).getD r
  String.mk (stemRev.reverse ++ ('.' :: ext.data))

/-- `set_extension` applied to the last component of a path (no-op on the
empty path, which the source rules out with an assertion). -/
def setExtLast : FsPath → String → FsPath
  | [], _ => []
  | [n], ext => [setExtName n ext]
  | n :: rest, ext => n :: setExtLast rest ext

/-- `BuildEnvironment::get_artifact_path` (src/build.rs lines 575-584): strip
the src directory prefix from the source path, re-root it under the output
directory and swap the extension.  The source `expect`s that the src directory
is a prefix; the model strips by component count. -/
def get_artifact_path (srcDir outDir src : FsPath) (ext : String) : FsPath :=
  setExtLast (outDir ++ src.drop srcDir.length) ext

/-- `PchOption` (src/build.rs). -/
inductive PchOption
  | generatePch
  | usePch
  | noPch
deriving DecidableEq

/-- The `BuildError` cases exercised by the task model (`NoPreviousRun` and
`CompilerError` are the ones `CxxTask` produces; the remaining I/O cases are
outside the model). -/
inductive BuildError
  | noPreviousRun
  | compilerError
deriving DecidableEq

/-- The per-project build context used by `CxxTask` (the fields of the
`BuildEnvironment` that `previous_valid_run`/`run_guaranteed` consume): the
edit-time oracle, the parsed dependency-descriptor store (`none` = no sidecar
at that path), and the derived directories. -/
structure BuildEnv where
  oracle : Oracle
  descStore : FsPath → Option (List FsPath)
  srcDirPath : FsPath
  objsPath : FsPath
  srcDepsPath : FsPath
  warningCachePath : FsPath

/-- Modelled from the spec: `BuildEnvironment::discover_src_deps` is called by
`CxxTask::previous_valid_run` (src/task.rs line 71) but its definition is not
under src/.  Spec §4.3: query the Up-to-date Predicate with dependencies
`{src}` and artifact the sidecar `<src_deps>/<relative_src>.json`; if the
sidecar is stale return `none` (the source must be rebuilt unconditionally),
else return the parsed include list (the caller adds the source itself). -/
def discover_src_deps (env : BuildEnv) (st : Oracle) (path : FsPath) :
    Option (List FsPath) × Oracle :=
  let sidecar := get_artifact_path env.srcDirPath env.srcDepsPath path "json"
  let r := should_build_artifact st [path] sidecar
  if r.1 then (none, r.2) else (env.descStore sidecar, r.2)

/-- `CxxTask::previous_valid_run` (src/task.rs lines 61-104), for a task whose
`src` is an `IdentityTask` on `src` (the only way `CxxTask`s are built):
compute the artifact path `<objs>/<relative_src>.<obj|pch>`, discover the
source's dependencies, and return `Ok(artifact_path)` when `should_rebuild`
holds, `Err(NoPreviousRun)` otherwise — exactly as the source is written. -/
def previous_valid_run (env : BuildEnv) (src : FsPath) (pch : PchOption) :
    Except BuildError FsPath × Oracle :=
  let generatingPch := pch = PchOption.generatePch
  let ext := if generatingPch then "pch" else "obj"
  let artifactPath := get_artifact_path env.srcDirPath env.objsPath src ext
  let isPch := src.getLast? = some "pch.cpp" ∧ src.dropLast = env.srcDirPath
  let d := discover_src_deps env env.oracle src
  let dependencies := d.1.map (fun ds => src :: ds)
  if generatingPch ∨ ¬ isPch then
    match dependencies with
    | some ds =>
      let r := should_build_artifact d.2 ds artifactPath
      if r.1 then (Except.ok artifactPath, r.2)
      else (Except.error BuildError.noPreviousRun, r.2)
    | none => (Except.ok artifactPath, d.2)
  else
    (Except.error BuildError.noPreviousRun, d.2)

/-- `TaskExt::run` (src/task.rs lines 27-36) returns the cached artifact —
skipping `run_guaranteed` — exactly when `previous_valid_run` returns `Ok`. -/
def run_reuses_cache (env : BuildEnv) (src : FsPath) (pch : PchOption) : Bool :=
  match (previous_valid_run env src pch).1 with
  | Except.ok _ => true
  | Except.error _ => false

/-- The parser states of `compile_cxx`'s stdout state machine
(src/build_manager.rs lines 77-83). -/
inductive ParseState
  | noFileName
  | neutral
  | inWarning
  | inError
deriving DecidableEq

/-- `CompilerOutput` (src/build_manager.rs lines 67-72). -/
inductive CompilerOutput
  | begun (first_line : String)
  | warning (chunk : String)
  | error (chunk : String)
deriving DecidableEq

/-- The suffix of the line after the first `": "` occurrence
(`line.find(": ")` followed by slicing past the two pattern bytes). -/
def afterHeader : List Char → Option (List Char)
  | [] => none
  | ':' :: ' ' :: rest => some rest
  | _ :: rest => afterHeader rest

/-- `state_transition` (src/build_manager.rs lines 87-100): a line whose
`"<location>: "` header is followed by at least one character enters
`InWarning` when that suffix starts with `warning`, `InError` when it starts
with `error` or `fatal error`; all other lines cause no transition. -/
def state_transition (line : List Char) : Option ParseState :=
  match afterHeader line with
  | some after =>
    if after.isEmpty then none
    else if "warning".data.isPrefixOf after then some ParseState.inWarning
    else if "error".data.isPrefixOf after || "fatal error".data.isPrefixOf after then
      some ParseState.inError
    else none
  | none => none

/-- The stdout loop of `compile_cxx` (src/build_manager.rs lines 101-148) on a
finished list of stdout lines: thread the parse state and the buffered chunk
through each line, and at end of input flush any pending chunk.  The
`debug_assert` on an unmatched line in `Neutral` is a no-op in release builds,
so such a line is ignored. -/
def parseLines (st : ParseState) (chunk : String) : List String → List CompilerOutput
  | [] =>
    match st with
    | ParseState.inWarning => [CompilerOutput.warning chunk]
    | ParseState.inError => [CompilerOutput.error chunk]
    | _ => []
  | line :: rest =>
    match st with
    | ParseState.noFileName => CompilerOutput.begun line :: parseLines ParseState.neutral chunk rest
    | ParseState.neutral =>
      match state_transition line.data with
      | some t => parseLines t line rest
      | none => parseLines ParseState.neutral chunk rest
    | ParseState.inWarning =>
      match state_transition line.data with
      | some t => CompilerOutput.warning chunk :: parseLines t line rest
      | none => parseLines ParseState.inWarning (chunk ++ "\n" ++ line) rest
    | ParseState.inError =>
      match state_transition line.data with
      | some t => CompilerOutput.error chunk :: parseLines t line rest
      | none => parseLines ParseState.inError (chunk ++ "\n" ++ line) rest

/-- The whole parse of one compile's stdout, from the initial `NoFileName`
state with an empty buffer. -/
def runParser (lines : List String) : List CompilerOutput :=
  parseLines ParseState.noFileName "" lines

/-- `s.lines().next().unwrap()` on a chunk: its first line.  Chunks are built
by joining `\n`-free lines with `\n`, so the first line is the prefix before
the first `\n`. -/
def firstLine (s : String) : String :=
  String.mk (s.data.takeWhile (fun c => c ≠ '\n'))

/-- The receiver loop of `CxxTask::run_guaranteed` (src/task.rs lines
158-175): for each `Warning` or `Error` event, insert the chunk's first line
into the process-wide `unique_compiler_output` set and print the chunk only
when the insertion is new; push every `Warning` chunk onto the warning cache.
Returns (displayed chunks in order, final first-line set, warning cache in
order). -/
def recvLoop (outs : List CompilerOutput) (seen : List String) :
    List String × List String × List String :=
  match outs with
  | [] => ([], seen, [])
  | o :: rest =>
    match o with
    | CompilerOutput.begun _ => recvLoop rest seen
    | CompilerOutput.warning s =>
      let fl := firstLine s
      let isNew := fl ∉ seen
      let r := recvLoop rest (if isNew then fl :: seen else seen)
      ((if isNew then s :: r.1 else r.1), r.2.1, s :: r.2.2)
    | CompilerOutput.error s =>
      let fl := firstLine s
      let isNew := fl ∉ seen
      let r := recvLoop rest (if isNew then fl :: seen else seen)
      ((if isNew then s :: r.1 else r.1), r.2.1, r.2.2)

/-- The payload of a `Warning` event (`none` for `Begun` and `Error`). -/
def warnPayload : CompilerOutput → Option String
  | CompilerOutput.warning s => some s
  | _ => none

/-- The payload of a `Warning` or `Error` event (the chunks the deduplicator
considers for display). -/
def chunkPayload : CompilerOutput → Option String
  | CompilerOutput.warning s => some s
  | CompilerOutput.error s => some s
  | CompilerOutput.begun _ => none

/-- Lower-case hexadecimal digit for `\u00XX` escapes. -/
def hexDigit (n : Nat) : Char :=
  if n < 10 then Char.ofNat (48 + n) else Char.ofNat (87 + n)

/-- Modelled from the spec: `serde_json`'s escaping of one character inside a
JSON string literal (the external serialiser used by `CxxTask::run_guaranteed`
is not repository code).  Short escapes for the usual control characters,
`\u00XX` for the remaining ones below 0x20. -/
def escChar (c : Char) : List Char :=
  if c = '"' then ['\\', '"']
  else if c = '\\' then ['\\', '\\']
  else if c = '\x08' then ['\\', 'b']
  else if c = '\x0c' then ['\\', 'f']
  else if c = '\n' then ['\\', 'n']
  else if c = '\r' then ['\\', 'r']
  else if c = '\t' then ['\\', 't']
  else if c.toNat < 32 then
    ['\\', 'u', '0', '0', hexDigit (c.toNat / 16), hexDigit (c.toNat % 16)]
  else [c]

/-- A JSON string literal for `s`. -/
def jsonStringLit (s : String) : String :=
  String.mk ('"' :: (s.data.flatMap escChar) ++ ['"'])

/-- Modelled from the spec: the serialised form of `WarningCache` — the
struct `task.rs` fills and `serde_json::to_string` renders; its declaration
lives in the revision of `build.rs` that is not under src/.  Spec §4.8 / §6:
`\x7b "warnings": [chunk, ...] \x7d`. -/
def warningCacheJson (warnings : List String) : String :=
  "\x7b\"warnings\":[" ++ String.intercalate "," (warnings.map jsonStringLit) ++ "]\x7d"

/-- The warning-cache persistence of `CxxTask::run_guaranteed` (src/task.rs
lines 155-192): parse the compiler stdout, collect the warning chunks through
the receiver loop, and write their JSON rendering to
`get_artifact_path(path, warning_cache_path, "warnings")`.  The spawned
compile itself is represented by its stdout lines and success flag; the
returned pair is (written file path, written contents) alongside the task's
result; `seen` is the process-wide deduplicator state the receiver starts
from. -/
def run_guaranteed_warning_write (env : BuildEnv) (src : FsPath)
    (stdoutLines : List String) (seen : List String) (success : Bool) :
    (FsPath × String) × Except BuildError FsPath :=
  let outs := runParser stdoutLines
  let cache := (recvLoop outs seen).2.2
  let cachePath := get_artifact_path env.srcDirPath env.warningCachePath src "warnings"
  let objPath := get_artifact_path env.srcDirPath env.objsPath src "obj"
  ((cachePath, warningCacheJson cache),
   if success then Except.ok objPath else Except.error BuildError.compilerError)

/-- `CxxStandard` (src/proj_config.rs). -/
inductive CxxStd
  | cxx11
  | cxx14
  | cxx17
  | cxx20
deriving DecidableEq

/-- `CxxStandard::numeric_value` (src/proj_config.rs lines 56-65). -/
def numeric_value : CxxStd → Nat
  | CxxStd.cxx11 => 11
  | CxxStd.cxx14 => 14
  | CxxStd.cxx17 => 17
  | CxxStd.cxx20 => 20

/-- The `Ord` instance of `CxxStandard`: comparison of the numeric values
(src/proj_config.rs lines 73-77), as the `<=` test used by
`is_compatible_with`. -/
def cxxStdLe (a b : CxxStd) : Bool :=
  decide (numeric_value a ≤ numeric_value b)

/-- `CxxOptions` (src/proj_config.rs lines 21-26). -/
structure CxxOptions where
  rtti : Bool
  async_await : Bool
  standard : CxxStd
deriving DecidableEq

/-- `CxxOptions::is_compatible_with` (src/proj_config.rs lines 28-32). -/
def is_compatible_with (self other : CxxOptions) : Bool :=
  self.rtti == other.rtti && self.async_await == other.async_await
    && cxxStdLe self.standard other.standard

/-- `OutputType` (src/proj_config.rs). -/
inductive OutputType
  | guiApp
  | consoleApp
  | dynamicLibrary
  | staticLibrary
deriving DecidableEq

/-- `Platform` (src/proj_config.rs). -/
inductive Platform
  | win32
  | win64
  | linux32
  | linux64
deriving DecidableEq

/-- `ProjectConfig` (src/proj_config.rs lines 5-13). -/
structure ProjectConfig where
  name : String
  cxx_options : CxxOptions
  output_type : OutputType
  link_libraries : List String
  supported_targets : List Platform
  dependencies : List FsPath
deriving DecidableEq

/-- `ProjectConfig::adapt_to_workspace` (src/proj_config.rs lines 15-19):
replace the project's whole `cxx_options` with the root project's. -/
def adapt_to_workspace (self root : ProjectConfig) : ProjectConfig :=
  { self with cxx_options := root.cxx_options }

/-- The dependency-building loop of `build_all` (src/main.rs lines 395-407):
each dependency project is adapted to the workspace and then built with its
(adapted) config; afterwards the root is built with its own config (with the
accumulated `link_libraries`).  The returned list holds the configs passed to
`build`, in build order. -/
def build_all_built_configs (dependencies : List ProjectConfig)
    (rootConfig : ProjectConfig) (finalLinkLibraries : List String) :
    List ProjectConfig :=
  dependencies.map (fun p => adapt_to_workspace p rootConfig)
    ++ [{ rootConfig with link_libraries := finalLinkLibraries }]

/-- `CompileFlag` (src/build_manager.rs lines 154-170). -/
inductive CompileFlag
  | concrete (s : String)
  | cxxStandardFlag (s : CxxStd)
  | rtti (enabled : Bool)
  | asyncAwait (enabled : Bool)
  | srcPath (p : String)
  | objPath (p : String)
  | pchPath (path : String) (generate : Bool)
  | define (name value : String)
  | includePath (p : String)
deriving DecidableEq

/-- The loop body of `CompileFlags::build` (src/build_manager.rs lines
251-301): push each flag's realisation onto the accumulated token list. -/
def buildFlagsAux (acc : List String) : List CompileFlag → List String
  | [] => acc
  | f :: rest =>
    let acc :=
      match f with
      | CompileFlag.concrete s => acc ++ [s]
      | CompileFlag.cxxStandardFlag s =>
        match s with
        | CxxStd.cxx11 => acc ++ ["/std:c++14"]
        | CxxStd.cxx14 => acc ++ ["/std:c++14"]
        | CxxStd.cxx17 => acc ++ ["/std:c++17"]
        | CxxStd.cxx20 => acc ++ ["/std:c++latest"]
      | CompileFlag.rtti enabled =>
        if enabled then acc ++ ["/GR"] else acc ++ ["/GR-"]
      | CompileFlag.asyncAwait enabled =>
        if enabled then acc ++ ["/await"] else acc
      | CompileFlag.srcPath p => acc ++ [p]
      | CompileFlag.objPath p => acc ++ ["/Fo" ++ p]
      | CompileFlag.pchPath p generate =>
        acc ++ ["/Fp" ++ p] ++ [if generate then "/Ycpch.h" else "/Yupch.h"]
      | CompileFlag.define n v => acc ++ ["/D" ++ n ++ "=" ++ v]
      | CompileFlag.includePath p => acc ++ ["/I", p]
    buildFlagsAux acc rest

/-- `CompileFlags::build` (src/build_manager.rs lines 251-301) on the chained
list of flags. -/
def buildFlags (flags : List CompileFlag) : List String :=
  buildFlagsAux [] flags

/-- The claim-side realisation table (spec §4.7): what one flag variant should
expand to. -/
def realiseFlag : CompileFlag → List String
  | CompileFlag.concrete s => [s]
  | CompileFlag.cxxStandardFlag CxxStd.cxx11 => ["/std:c++14"]
  | CompileFlag.cxxStandardFlag CxxStd.cxx14 => ["/std:c++14"]
  | CompileFlag.cxxStandardFlag CxxStd.cxx17 => ["/std:c++17"]
  | CompileFlag.cxxStandardFlag CxxStd.cxx20 => ["/std:c++latest"]
  | CompileFlag.rtti true => ["/GR"]
  | CompileFlag.rtti false => ["/GR-"]
  | CompileFlag.asyncAwait true => ["/await"]
  | CompileFlag.asyncAwait false => []
  | CompileFlag.srcPath p => [p]
  | CompileFlag.objPath p => ["/Fo" ++ p]
  | CompileFlag.pchPath p true => ["/Fp" ++ p, "/Ycpch.h"]
  | CompileFlag.pchPath p false => ["/Fp" ++ p, "/Yupch.h"]
  | CompileFlag.define n v => ["/D" ++ n ++ "=" ++ v]
  | CompileFlag.includePath p => ["/I", p]

/-- The C++-option flags chained by `CxxTask::run_guaranteed` (src/task.rs
lines 112-122): `.rtti(..).async_await(..).cxx_standard(..)` in this order. -/
def task_cxx_option_flags (o : CxxOptions) : List CompileFlag :=
  [CompileFlag.rtti o.rtti, CompileFlag.asyncAwait o.async_await,
   CompileFlag.cxxStandardFlag o.standard]

/-- The manifest data `accumulate_dependencies` consumes: the project name and
the (already canonicalised) dependency paths.  Canonicalisation is modelled as
the identity on canonical paths; its failure mode (a nonexistent path) shows
up as a failed config lookup. -/
structure ProjCfg where
  name : String
  deps : List String
deriving DecidableEq

/-- The on-disk universe of project manifests: canonical project root path to
manifest.  `load_config` on a path outside this list fails. -/
abbrev Graph := List (String × ProjCfg)

/-- `load_config` by canonical path. -/
def lookupG (g : Graph) (p : String) : Option ProjCfg :=
  ((g.find? (fun e => decide (e.1 = p))).map (fun e => e.2))

/-- One entry of the `projects: HashMap<String, Project>` map (src/main.rs
lines 256-262): config path, reference count and recorded dependency names
(the config itself is recoverable from the path). -/
structure ProjEntry where
  path : String
  refCount : Nat
  depNames : List String
deriving DecidableEq

/-- The `projects` map, keyed by project name. -/
abbrev ProjMap := List (String × ProjEntry)

/-- `projects.get(name)`. -/
def lookupM (m : ProjMap) (n : String) : Option ProjEntry :=
  ((m.find? (fun e => decide (e.1 = n))).map (fun e => e.2))

/-- `projects.insert(name, entry)` / in-place mutation through `entry()`:
replace the entry when the key is present, append it otherwise. -/
def insertM : ProjMap → String → ProjEntry → ProjMap
  | [], n, e => [(n, e)]
  | (k, v) :: rest, n, e =>
    if k = n then (n, e) :: rest else (k, v) :: insertM rest n e

/-- `projects.get_mut(name).unwrap().dep_names = names` (src/main.rs line
317).  The entry is always present on reachable states (the root is inserted
before the first call, every dependency before its recursive call), so the
panic case is modelled as a no-op. -/
def updateDepNames : ProjMap → String → List String → ProjMap
  | [], _, _ => []
  | (k, v) :: rest, n, names =>
    if k = n then (k, { v with depNames := names }) :: rest
    else (k, v) :: updateDepNames rest n names

/-- The fatal errors `accumulate_dependencies` can raise through
`fail_immediate!` (src/main.rs lines 271-319): empty dependency path,
duplicate entries in one dependency list, unreadable/nonexistent dependency
manifest, the reference-count ceiling (`Loop found in dependency graph.`), and
two projects sharing a name with different canonical paths. -/
inductive ResolveError
  | emptyDep
  | dupDeps
  | loadFail
  | depLoop
  | nameCollision
deriving DecidableEq

/-- Duplicate detection over one dependency list (the source compares a
`HashSet`'s size with the list's length). -/
def hasDup : List String → Bool
  | [] => false
  | d :: ds => ds.contains d || hasDup ds

/-- The `for dependency in &canonical_deps` loop of `accumulate_dependencies`
(src/main.rs lines 291-315), abstracted over the recursive call `rec`: load
the dependency's manifest, bump its reference count in the `projects` map
(inserting a fresh entry when the name is new), fail at a count above 100 or
at a name collision, recurse, and accumulate the dependency names.  `none`
models recursion that has exhausted the embedding's fuel. -/
def accumLoopF (g : Graph)
    (rec : ProjMap → String → ProjCfg → Option (Except ResolveError ProjMap)) :
    ProjMap → List String → List String →
    Option (Except ResolveError (ProjMap × List String))
  | m, [], names => some (Except.ok (m, names))
  | m, d :: ds, names =>
    match lookupG g d with
    | none => some (Except.error ResolveError.loadFail)
    | some dcfg =>
      let e0 :=
        match lookupM m dcfg.name with
        | some e => e
        | none => { path := d, refCount := 0, depNames := [] }
      let e1 := { e0 with refCount := e0.refCount + 1 }
      let m2 := insertM m dcfg.name e1
      if 100 < e1.refCount then some (Except.error ResolveError.depLoop)
      else if d ≠ e1.path then some (Except.error ResolveError.nameCollision)
      else
        match rec m2 d dcfg with
        | none => none
        | some (Except.error e) => some (Except.error e)
        | some (Except.ok m3) => accumLoopF g rec m3 ds (names ++ [dcfg.name])

/-- `accumulate_dependencies` (src/main.rs lines 271-319) with explicit fuel
(`none` = fuel exhausted; the source recursion has no such bound, and the
theorems below show a fuel of `resolveFuel` is never exhausted): check the
dependency list for empty paths and duplicates, run the dependency loop, then
record the accumulated dependency names on the current project's entry. -/
def accumDeps (g : Graph) : Nat → ProjMap → String → ProjCfg →
    Option (Except ResolveError ProjMap)
  | 0, _, _, _ => none
  | fuel + 1, m, _cfgPath, cfg =>
    if cfg.deps.contains "" then some (Except.error ResolveError.emptyDep)
    else if hasDup cfg.deps then some (Except.error ResolveError.dupDeps)
    else
      match accumLoopF g (accumDeps g fuel) m cfg.deps [] with
      | none => none
      | some (Except.error e) => some (Except.error e)
      | some (Except.ok r) => some (Except.ok (updateDepNames r.1 cfg.name r.2))

/-- The `projects` map as `main` initialises it before the first
`accumulate_dependencies` call (src/main.rs line 269): the root alone, with
reference count 1. -/
def initProjects (rootPath : String) (rootCfg : ProjCfg) : ProjMap :=
  [(rootCfg.name, { path := rootPath, refCount := 1, depNames := [] })]

/-- An upper bound for the number of distinct project names a resolution can
ever insert: the distinct manifest names in the universe. -/
def namesBound (g : Graph) : Nat :=
  ((g.map (fun e => e.2.name)).dedup).length

/-- Sufficient fuel for any resolution over `g` (proved below): the total of
all reference counts is bounded by `100 * namesBound g`. -/
def resolveFuel (g : Graph) : Nat :=
  100 * namesBound g + 1

/-- The dependency-graph edge relation: project `p`'s manifest lists `q`. -/
def edgeG (g : Graph) (p q : String) : Prop :=
  ∃ c, lookupG g p = some c ∧ q ∈ c.deps

/-- A cycle in the dependency graph reachable from `r`. -/
def cycleReachableFrom (g : Graph) (r : String) : Prop :=
  ∃ q, Relation.ReflTransGen (edgeG g) r q ∧ Relation.TransGen (edgeG g) q q

/-- Decidable well-formedness of the manifest universe: no manifest lists an
empty or duplicate or unloadable dependency path. -/
def graphWF (g : Graph) : Prop :=
  ∀ e ∈ g, e.2.deps.contains "" = false ∧ hasDup e.2.deps = false ∧
    ∀ d ∈ e.2.deps, (lookupG g d).isSome

/-- Decidable name injectivity over the manifest universe: two manifests with
the same name sit at the same canonical path. -/
def graphNamesInj (g : Graph) : Prop :=
  ∀ e1 ∈ g, ∀ e2 ∈ g, e1.2.name = e2.2.name → e1.1 = e2.1

/-- The sum of all reference counts in the `projects` map. -/
def msum (m : ProjMap) : Nat :=
  (m.map (fun e => e.2.refCount)).sum

/-- The resolution invariant: map keys are distinct names drawn from the
manifest universe and every reference count respects the ceiling. -/
def mapInv (g : Graph) (m : ProjMap) : Prop :=
  (m.map (fun e => e.1)).Nodup ∧
    ∀ e ∈ m, e.2.refCount ≤ 100 ∧ e.1 ∈ g.map (fun x => x.2.name)

/-- The name-consistency invariant used for the collision-freedom argument:
every map entry's recorded path loads a manifest bearing the entry's name. -/
def mapNamesOk (g : Graph) (m : ProjMap) : Prop :=
  ∀ e ∈ m, ∃ c, lookupG g e.2.path = some c ∧ c.name = e.1

/-- A concrete filesystem for the task-model evaluations: `src/a.cpp` edited
at time 5, its dependency descriptor written at time 10, its object file
written at time 10 (so the object is up to date). -/
def fsUpToDate : FsPath → Option Nat := fun p =>
  if p = ["src", "a.cpp"] then some 5
  else if p = ["deps", "a.json"] then some 10
  else if p = ["obj", "a.obj"] then some 10
  else none

/-- As `fsUpToDate`, but the object file was written at time 1 (older than the
source: a rebuild is required). -/
def fsStale : FsPath → Option Nat := fun p =>
  if p = ["src", "a.cpp"] then some 5
  else if p = ["deps", "a.json"] then some 10
  else if p = ["obj", "a.obj"] then some 1
  else none

/-- A first build: only the source exists; there is no descriptor and no
object file. -/
def fsFirstBuild : FsPath → Option Nat := fun p =>
  if p = ["src", "a.cpp"] then some 5 else none

/-- The descriptor store holding an empty include list for `src/a.cpp`'s
sidecar. -/
def descA : FsPath → Option (List FsPath) := fun p =>
  if p = ["deps", "a.json"] then some [] else none

/-- Build context over `fsUpToDate`. -/
def envUpToDate : BuildEnv :=
  { oracle := ⟨fsUpToDate, []⟩
    descStore := descA
    srcDirPath := ["src"]
    objsPath := ["obj"]
    srcDepsPath := ["deps"]
    warningCachePath := ["wc"] }

/-- Build context over `fsStale`. -/
def envStale : BuildEnv :=
  { oracle := ⟨fsStale, []⟩
    descStore := descA
    srcDirPath := ["src"]
    objsPath := ["obj"]
    srcDepsPath := ["deps"]
    warningCachePath := ["wc"] }

/-- Build context over `fsFirstBuild` (no descriptor). -/
def envFirstBuild : BuildEnv :=
  { oracle := ⟨fsFirstBuild, []⟩
    descStore := fun _ => none
    srcDirPath := ["src"]
    objsPath := ["obj"]
    srcDepsPath := ["deps"]
    warningCachePath := ["wc"] }

/-- The manifest universe of a two-project dependency cycle: `a` depends on
`b` and `b` on `a`. -/
def gCycle : Graph := [("a", ⟨"a", ["b"]⟩), ("b", ⟨"b", ["a"]⟩)]

/-- The root manifest of `gCycle`. -/
def cfgA : ProjCfg := ⟨"a", ["b"]⟩

/-- A sample dependency-project manifest. -/
def sampleDep : ProjectConfig :=
  { name := "util"
    cxx_options := ⟨true, false, CxxStd.cxx14⟩
    output_type := OutputType.staticLibrary
    link_libraries := []
    supported_targets := [Platform.win64]
    dependencies := [] }

/-- A sample root-project manifest with different C++ options. -/
def sampleRoot : ProjectConfig :=
  { name := "app"
    cxx_options := ⟨false, true, CxxStd.cxx20⟩
    output_type := OutputType.consoleApp
    link_libraries := ["user32.lib"]
    supported_targets := [Platform.win64]
    dependencies := [["..", "util"]] }

theorem buildFlagsAux_eq (fl : List CompileFlag) :
    ∀ acc, buildFlagsAux acc fl = acc ++ fl.flatMap realiseFlag := by
  induction fl with
  | nil => intro acc; simp [buildFlagsAux]
  | cons f rest ih =>
    intro acc
    cases f with
    | concrete s => simp [buildFlagsAux, realiseFlag, ih]
    | cxxStandardFlag s => cases s <;> simp [buildFlagsAux, realiseFlag, ih]
    | rtti b => cases b <;> simp [buildFlagsAux, realiseFlag, ih]
    | asyncAwait b => cases b <;> simp [buildFlagsAux, realiseFlag, ih]
    | srcPath p => simp [buildFlagsAux, realiseFlag, ih]
    | objPath p => simp [buildFlagsAux, realiseFlag, ih]
    | pchPath p gen => cases gen <;> simp [buildFlagsAux, realiseFlag, ih]
    | define n v => simp [buildFlagsAux, realiseFlag, ih]
    | includePath p => simp [buildFlagsAux, realiseFlag, ih]

/-- C6: `CompileFlags::build` expands the chained flags, in order, into
exactly the tokens of the realisation table. -/
theorem c6_compile_flags_realisation :
    (∀ flags : List CompileFlag, buildFlags flags = flags.flatMap realiseFlag)
  ∧ (∀ xs ys : List CompileFlag,
      buildFlags (xs ++ ys) = buildFlags xs ++ buildFlags ys)
  ∧ (∀ s, realiseFlag (CompileFlag.concrete s) = [s])
  ∧ (realiseFlag (CompileFlag.cxxStandardFlag CxxStd.cxx11) = ["/std:c++14"]
     ∧ realiseFlag (CompileFlag.cxxStandardFlag CxxStd.cxx14) = ["/std:c++14"]
     ∧ realiseFlag (CompileFlag.cxxStandardFlag CxxStd.cxx17) = ["/std:c++17"]
     ∧ realiseFlag (CompileFlag.cxxStandardFlag CxxStd.cxx20) = ["/std:c++latest"])
  ∧ (realiseFlag (CompileFlag.rtti true) = ["/GR"]
     ∧ realiseFlag (CompileFlag.rtti false) = ["/GR-"])
  ∧ (realiseFlag (CompileFlag.asyncAwait true) = ["/await"]
     ∧ realiseFlag (CompileFlag.asyncAwait false) = [])
  ∧ (∀ n v, realiseFlag (CompileFlag.define n v) = ["/D" ++ n ++ "=" ++ v])
  ∧ (∀ p, realiseFlag (CompileFlag.includePath p) = ["/I", p])
  ∧ (∀ p, realiseFlag (CompileFlag.srcPath p) = [p])
  ∧ (∀ p, realiseFlag (CompileFlag.objPath p) = ["/Fo" ++ p])
  ∧ (∀ p, realiseFlag (CompileFlag.pchPath p true) = ["/Fp" ++ p, "/Ycpch.h"]
     ∧ realiseFlag (CompileFlag.pchPath p false) = ["/Fp" ++ p, "/Yupch.h"]) := by
  refine ⟨fun flags => by simpa using buildFlagsAux_eq flags [], fun xs ys => ?_,
    fun s => rfl, ⟨rfl, rfl, rfl, rfl⟩, ⟨rfl, rfl⟩, ⟨rfl, rfl⟩,
    fun n v => rfl, fun p => rfl, fun p => rfl, fun p => rfl, fun p => ⟨rfl, rfl⟩⟩
  have h := buildFlagsAux_eq
  simp [buildFlags, h, List.flatMap_append]

/-- C7: `CxxOptions::is_compatible_with` holds exactly when `rtti` and
`async_await` match and the dependency's C++ standard is numerically at most
the root's; a c++17 root accepts c++14 and rejects c++20. -/
theorem c7_is_compatible_with_spec :
    (∀ dep root : CxxOptions,
      is_compatible_with dep root = true ↔
        (dep.rtti = root.rtti ∧ dep.async_await = root.async_await ∧
          numeric_value dep.standard ≤ numeric_value root.standard))
  ∧ (numeric_value CxxStd.cxx11 < numeric_value CxxStd.cxx14
     ∧ numeric_value CxxStd.cxx14 < numeric_value CxxStd.cxx17
     ∧ numeric_value CxxStd.cxx17 < numeric_value CxxStd.cxx20)
  ∧ (∀ r a, is_compatible_with ⟨r, a, CxxStd.cxx14⟩ ⟨r, a, CxxStd.cxx17⟩ = true)
  ∧ (∀ r a, is_compatible_with ⟨r, a, CxxStd.cxx20⟩ ⟨r, a, CxxStd.cxx17⟩ = false) := by
  refine ⟨fun dep root => ?_, by decide, fun r a => ?_, fun r a => ?_⟩
  · simp [is_compatible_with, cxxStdLe, Bool.and_eq_true, decide_eq_true_iff, and_assoc]
  · simp [is_compatible_with, cxxStdLe, numeric_value]
  · simp [is_compatible_with, cxxStdLe, numeric_value]

/-- Closed instance of C7's compatibility rule, by way of the theorem. -/
theorem c7_is_compatible_with_spec_witness :
    is_compatible_with ⟨false, true, CxxStd.cxx14⟩ ⟨false, true, CxxStd.cxx17⟩ = true
  ∧ is_compatible_with ⟨false, true, CxxStd.cxx20⟩ ⟨false, true, CxxStd.cxx17⟩ = false :=
  ⟨c7_is_compatible_with_spec.2.2.1 false true, c7_is_compatible_with_spec.2.2.2 false true⟩

/-- C10: every dependency project is built with its whole `cxx_options`
replaced by the root's, all other manifest fields untouched, so the
dependency's declared options cannot reach the compiler flags. -/
theorem c10_dependencies_adopt_root_options :
    (∀ (deps : List ProjectConfig) (root : ProjectConfig) (libs : List String),
      ∀ cfg ∈ (build_all_built_configs deps root libs).take deps.length,
        cfg.cxx_options = root.cxx_options)
  ∧ (∀ dep root : ProjectConfig,
      (adapt_to_workspace dep root).cxx_options = root.cxx_options
      ∧ (adapt_to_workspace dep root).name = dep.name
      ∧ (adapt_to_workspace dep root).output_type = dep.output_type
      ∧ (adapt_to_workspace dep root).link_libraries = dep.link_libraries
      ∧ (adapt_to_workspace dep root).supported_targets = dep.supported_targets
      ∧ (adapt_to_workspace dep root).dependencies = dep.dependencies)
  ∧ (∀ dep root o,
      adapt_to_workspace { dep with cxx_options := o } root = adapt_to_workspace dep root)
  ∧ (∀ dep root : ProjectConfig,
      task_cxx_option_flags (adapt_to_workspace dep root).cxx_options
        = task_cxx_option_flags root.cxx_options) := by
  refine ⟨fun deps root libs cfg hcfg => ?_, fun dep root => ?_, fun dep root o => rfl,
    fun dep root => rfl⟩
  · have hlen : (deps.map (fun p => adapt_to_workspace p root)).length = deps.length := by
      simp
    rw [build_all_built_configs, List.take_left' hlen] at hcfg
    obtain ⟨d, _, rfl⟩ := List.mem_map.mp hcfg
    rfl
  · exact ⟨rfl, rfl, rfl, rfl, rfl, rfl⟩

/-- Closed instance of C10, by way of the theorem. -/
theorem c10_dependencies_adopt_root_options_witness :
    (adapt_to_workspace sampleDep sampleRoot).cxx_options = sampleRoot.cxx_options
  ∧ adapt_to_workspace sampleDep sampleRoot
      ∈ (build_all_built_configs [sampleDep] sampleRoot []).take 1 :=
  ⟨c10_dependencies_adopt_root_options.1 [sampleDep] sampleRoot []
      (adapt_to_workspace sampleDep sampleRoot) (by simp [build_all_built_configs]),
   by simp [build_all_built_configs]⟩

/-- C1 (divergence witness): evaluated on concrete build states,
`CxxTask::previous_valid_run` returns `NoPreviousRun` when the object is up to
date (so the composed `run` recompiles it) and returns the artifact path when
a rebuild is required or no descriptor exists (so the composed `run` skips the
compile and reuses a stale or even nonexistent object) — the exact inverse of
the claim. -/
theorem c1_previous_valid_run_inverted :
    (previous_valid_run envUpToDate ["src", "a.cpp"] PchOption.usePch).1
      = Except.error BuildError.noPreviousRun
  ∧ run_reuses_cache envUpToDate ["src", "a.cpp"] PchOption.usePch = false
  ∧ (previous_valid_run envStale ["src", "a.cpp"] PchOption.usePch).1
      = Except.ok ["obj", "a.obj"]
  ∧ run_reuses_cache envStale ["src", "a.cpp"] PchOption.usePch = true
  ∧ (previous_valid_run envFirstBuild ["src", "a.cpp"] PchOption.usePch).1
      = Except.ok ["obj", "a.obj"]
  ∧ run_reuses_cache envFirstBuild ["src", "a.cpp"] PchOption.usePch = true
  ∧ fsUpToDate ["src", "a.cpp"] = some 5
  ∧ fsUpToDate ["deps", "a.json"] = some 10
  ∧ fsUpToDate ["obj", "a.obj"] = some 10
  ∧ fsStale ["obj", "a.obj"] = some 1
  ∧ fsFirstBuild ["deps", "a.json"] = none
  ∧ fsFirstBuild ["obj", "a.obj"] = none :=
  ⟨rfl, rfl, rfl, rfl, rfl, rfl, rfl, rfl, rfl, rfl, rfl, rfl⟩

theorem lookupTime_eq_none_iff (c : List (FsPath × Nat)) (q : FsPath) :
    lookupTime c q = none ↔ ∀ e ∈ c, e.1 ≠ q := by
  simp [lookupTime, List.find?_eq_none]

theorem lookupTime_removeTime_self (c : List (FsPath × Nat)) (p : FsPath) :
    lookupTime (removeTime c p) p = none := by
  rw [lookupTime_eq_none_iff]
  intro e he
  have := (List.mem_filter.mp he).2
  simpa using this

theorem lookupTime_removeTime_none (c : List (FsPath × Nat)) (p q : FsPath)
    (h : lookupTime c q = none) : lookupTime (removeTime c p) q = none := by
  rw [lookupTime_eq_none_iff] at h ⊢
  intro e he
  exact h e (List.mem_filter.mp he).1

theorem lookupTime_foldl_removeTime_none (arts : List FsPath) :
    ∀ (cache : List (FsPath × Nat)) (a : FsPath), lookupTime cache a = none →
      lookupTime (arts.foldl removeTime cache) a = none := by
  induction arts with
  | nil => intro cache a h; simpa using h
  | cons x rest ih =>
    intro cache a h
    exact ih (removeTime cache x) a (lookupTime_removeTime_none cache x a h)

theorem lookupTime_foldl_removeTime_mem (arts : List FsPath) :
    ∀ (cache : List (FsPath × Nat)) (a : FsPath), a ∈ arts →
      lookupTime (arts.foldl removeTime cache) a = none := by
  induction arts with
  | nil => intro cache a h; cases h
  | cons x rest ih =>
    intro cache a h
    rcases List.mem_cons.mp h with rfl | h
    · exact lookupTime_foldl_removeTime_none rest (removeTime cache a) a
        (lookupTime_removeTime_self cache a)
    · exact ih (removeTime cache x) a h

/-- C3: the up-to-date predicate answers `newest_dep > oldest_art`, with the
claimed empty-list defaults and missing-file sentinels, and on a positive
answer every artifact path's cached edit time is gone from the oracle. -/
theorem c3_up_to_date_predicate :
    ∀ (st : Oracle) (deps arts : List FsPath) (f : FsPath → Bool),
      ((should_build_artifacts_impl st deps arts f).1 = true ↔
        oldestArtTime (oracleAfterDeps st deps) arts f < newestDepTime st deps)
      ∧ (deps = [] → newestDepTime st deps = 0)
      ∧ (∀ st', arts.filter f = [] → oldestArtTime st' arts f = 0)
      ∧ (∀ p fb, lookupTime st.cache p = none → st.fs p = none →
          (editTime st p fb).1 = fb)
      ∧ ((should_build_artifacts_impl st deps arts f).1 = true →
          ∀ a ∈ arts,
            lookupTime (should_build_artifacts_impl st deps arts f).2.cache a = none) := by
  intro st deps arts f
  refine ⟨?_, ?_, ?_, ?_, ?_⟩
  · simp only [should_build_artifacts_impl, newestDepTime, oldestArtTime, oracleAfterDeps]
    split <;> rename_i h <;> simp [h]
  · intro h; subst h; rfl
  · intro st' h
    simp only [oldestArtTime, h, editTimesList]
    rfl
  · intro p fb h1 h2; simp [editTime, h1, h2]
  · intro htrue a ha
    simp only [should_build_artifacts_impl] at htrue ⊢
    split at htrue
    · rename_i h
      rw [if_pos h]
      exact lookupTime_foldl_removeTime_mem arts _ a ha
    · simp at htrue

/-- Closed instance of C3, by way of the theorem: a dependency newer than the
artifact forces a rebuild and evicts the artifact's cached edit time. -/
theorem c3_up_to_date_predicate_witness :
    (should_build_artifacts_impl
        ⟨fun p => if p = [("d" : String)] then some 5
                  else if p = [("a" : String)] then some 3 else none, []⟩
        [["d"]] [["a"]] (fun _ => true)).1 = true
    ∧ lookupTime
        (should_build_artifacts_impl
          ⟨fun p => if p = [("d" : String)] then some 5
                    else if p = [("a" : String)] then some 3 else none, []⟩
          [["d"]] [["a"]] (fun _ => true)).2.cache [("a" : String)] = none := by
  have h := c3_up_to_date_predicate
    ⟨fun p => if p = [("d" : String)] then some 5
              else if p = [("a" : String)] then some 3 else none, []⟩
    [["d"]] [["a"]] (fun _ => true)
  have h1 : (should_build_artifacts_impl
      ⟨fun p => if p = [("d" : String)] then some 5
                else if p = [("a" : String)] then some 3 else none, []⟩
      [["d"]] [["a"]] (fun _ => true)).1 = true := h.1.mpr (by decide)
  exact ⟨h1, h.2.2.2.2 h1 [("a" : String)] (by decide)⟩

theorem editTime_setFs (st : Oracle) (p : FsPath) (t : Option Nat) (q : FsPath)
    (fb : Nat) (h : q ≠ p) :
    editTime (setFs st p t) q fb
      = ((editTime st q fb).1, setFs (editTime st q fb).2 p t) := by
  cases hl : lookupTime st.cache q with
  | some v => simp [editTime, setFs, hl]
  | none => simp [editTime, setFs, hl, h]

theorem editTimesList_setFs (ps : List FsPath) :
    ∀ (st : Oracle) (p : FsPath) (t : Option Nat) (fb : Nat),
      (∀ q ∈ ps, q ≠ p) →
      editTimesList (setFs st p t) ps fb
        = ((editTimesList st ps fb).1, setFs (editTimesList st ps fb).2 p t) := by
  induction ps with
  | nil => intro st p t fb _; rfl
  | cons q rest ih =>
    intro st p t fb hq
    have h1 := editTime_setFs st p t q fb (hq q (List.mem_cons_self q rest))
    have h2 := ih (editTime st q fb).2 p t fb (fun x hx => hq x (List.mem_cons_of_mem q hx))
    simp [editTimesList, h1, h2]

/-- C2 (counterexample): `should_build_artifacts_impl` consults only the
dependency paths handed to it; with the dependency set `compile_directory`
builds (headers plus the source) the root manifest is not among them, and a
manifest strictly newer than the object does not trigger a rebuild. -/
theorem c2_manifest_not_in_dependency_set :
    (should_build_artifacts_impl
        ⟨fun p => if p = [("abs.json" : String)] then some 100
                  else if p = ["src", "main.cpp"] then some 1
                  else if p = ["obj", "main.obj"] then some 50 else none, []⟩
        (compile_directory_dep_set [] ["src", "main.cpp"])
        [["obj", "main.obj"]] (fun _ => true)).1 = false
    ∧ ([("abs.json" : String)] : FsPath) ∉ compile_directory_dep_set [] ["src", "main.cpp"]
    ∧ (if ([("abs.json" : String)] : FsPath) = [("abs.json" : String)] then some 100
        else none) = some (100 : Nat)
    ∧ (50 : Nat) < 100 := by
  refine ⟨by decide, by decide, by decide, by decide⟩

/-- C2 (amended): the up-to-date predicate depends only on the filesystem
state of the paths passed as dependencies and artifacts; changing the
manifest's edit time — the manifest being in neither set — never changes the
answer. -/
theorem c2_predicate_ignores_other_paths :
    ∀ (st : Oracle) (deps arts : List FsPath) (f : FsPath → Bool)
      (p : FsPath) (t : Option Nat),
      p ∉ deps → p ∉ arts →
      (should_build_artifacts_impl (setFs st p t) deps arts f).1
        = (should_build_artifacts_impl st deps arts f).1 := by
  intro st deps arts f p t hd ha
  have h1 : editTimesList (setFs st p t) deps U64_MAX
      = ((editTimesList st deps U64_MAX).1,
          setFs (editTimesList st deps U64_MAX).2 p t) :=
    editTimesList_setFs deps st p t U64_MAX (fun q hq => fun he => hd (he ▸ hq))
  have h2 : editTimesList (setFs (editTimesList st deps U64_MAX).2 p t)
        (arts.filter f) 0
      = ((editTimesList (editTimesList st deps U64_MAX).2 (arts.filter f) 0).1,
          setFs (editTimesList (editTimesList st deps U64_MAX).2 (arts.filter f) 0).2 p t) :=
    editTimesList_setFs (arts.filter f) (editTimesList st deps U64_MAX).2 p t 0
      (fun q hq => fun he => ha (he ▸ (List.mem_filter.mp hq).1))
  simp only [should_build_artifacts_impl, h1, h2]
  split <;> rfl

/-- Closed instance of the amended C2, by way of the theorem: overriding the
manifest's edit time to 100 leaves the predicate's verdict unchanged. -/
theorem c2_predicate_ignores_other_paths_witness :
    (should_build_artifacts_impl
        (setFs ⟨fun p => if p = [("s" : String)] then some 1
                          else if p = [("o" : String)] then some 5 else none, []⟩
          [("m" : String)] (some 100))
        [["s"]] [["o"]] (fun _ => true)).1
      = (should_build_artifacts_impl
          ⟨fun p => if p = [("s" : String)] then some 1
                    else if p = [("o" : String)] then some 5 else none, []⟩
          [["s"]] [["o"]] (fun _ => true)).1 :=
  c2_predicate_ignores_other_paths
    ⟨fun p => if p = [("s" : String)] then some 1
              else if p = [("o" : String)] then some 5 else none, []⟩
    [["s"]] [["o"]] (fun _ => true) [("m" : String)] (some 100)
    (by decide) (by decide)

theorem isPrefixOf_cons_eq_head (x : Char) (xs : List Char) (c : Char)
    (cs : List Char) (h : (x :: xs).isPrefixOf (c :: cs) = true) : x = c := by
  simp [List.isPrefixOf] at h
  exact h.1

theorem warning_error_disjoint (a : List Char)
    (h : "error".data.isPrefixOf a = true ∨ "fatal error".data.isPrefixOf a = true) :
    "warning".data.isPrefixOf a = false := by
  cases a with
  | nil => rcases h with h | h <;> simp [List.isPrefixOf] at h
  | cons c cs =>
    have hc : c ≠ 'w' := by
      rcases h with h | h
      · have he := isPrefixOf_cons_eq_head 'e' _ c cs h
        subst he
        decide
      · have he := isPrefixOf_cons_eq_head 'f' _ c cs h
        subst he
        decide
    cases hw : ("warning".data.isPrefixOf (c :: cs)) with
    | false => rfl
    | true =>
      exact absurd (isPrefixOf_cons_eq_head 'w' _ c cs hw).symm hc

/-- C5: the compiler-output state machine — first line always `Begun`; a
warning/error header line flushes any buffered chunk with the kind it was
buffered in and starts a new chunk; non-matching lines inside a chunk are
appended after a newline; end of input flushes the pending chunk. -/
theorem c5_parser_state_machine :
    (∀ l ls, runParser (l :: ls)
        = CompilerOutput.begun l :: parseLines ParseState.neutral "" ls)
  ∧ (∀ (line a : List Char), afterHeader line = some a → a ≠ [] →
      ("warning".data.isPrefixOf a = true →
          state_transition line = some ParseState.inWarning)
      ∧ ("error".data.isPrefixOf a = true ∨ "fatal error".data.isPrefixOf a = true →
          state_transition line = some ParseState.inError))
  ∧ (∀ (chunk line : String) (rest : List String) (t : ParseState),
      state_transition line.data = some t →
      parseLines ParseState.inWarning chunk (line :: rest)
          = CompilerOutput.warning chunk :: parseLines t line rest
      ∧ parseLines ParseState.inError chunk (line :: rest)
          = CompilerOutput.error chunk :: parseLines t line rest
      ∧ parseLines ParseState.neutral chunk (line :: rest) = parseLines t line rest)
  ∧ (∀ (chunk line : String) (rest : List String),
      state_transition line.data = none →
      parseLines ParseState.inWarning chunk (line :: rest)
          = parseLines ParseState.inWarning (chunk ++ "\n" ++ line) rest
      ∧ parseLines ParseState.inError chunk (line :: rest)
          = parseLines ParseState.inError (chunk ++ "\n" ++ line) rest)
  ∧ (∀ chunk : String,
      parseLines ParseState.inWarning chunk [] = [CompilerOutput.warning chunk]
      ∧ parseLines ParseState.inError chunk [] = [CompilerOutput.error chunk]
      ∧ parseLines ParseState.neutral chunk [] = []
      ∧ parseLines ParseState.noFileName chunk [] = []) := by
  refine ⟨fun l ls => rfl, fun line a ha hne => ⟨fun hw => ?_, fun he => ?_⟩,
    fun chunk line rest t ht => ⟨?_, ?_, ?_⟩, fun chunk line rest hn => ⟨?_, ?_⟩,
    fun chunk => ⟨rfl, rfl, rfl, rfl⟩⟩
  · have hie : a.isEmpty = false := by
      cases a with
      | nil => exact absurd rfl hne
      | cons _ _ => rfl
    simp [state_transition, ha, hie, hw]
  · have hie : a.isEmpty = false := by
      cases a with
      | nil => exact absurd rfl hne
      | cons _ _ => rfl
    have hwf := warning_error_disjoint a he
    rcases he with he | he <;> simp [state_transition, ha, hie, hwf, he]
  · simp [parseLines, ht]
  · simp [parseLines, ht]
  · simp [parseLines, ht]
  · simp [parseLines, hn]
  · simp [parseLines, hn]

/-- Closed instances of C5's clauses on a concrete compile transcript, by way
of the theorem. -/
theorem c5_parser_state_machine_witness :
    runParser ["main.cpp"] = [CompilerOutput.begun "main.cpp"]
  ∧ state_transition "main.cpp(3): warning C4101: unused".data
      = some ParseState.inWarning
  ∧ state_transition "main.cpp(9): fatal error C1083: missing".data
      = some ParseState.inError
  ∧ parseLines ParseState.inWarning "w0" ["main.cpp(9): fatal error C1083: missing"]
      = [CompilerOutput.warning "w0",
         CompilerOutput.error "main.cpp(9): fatal error C1083: missing"]
  ∧ parseLines ParseState.inError "e0" ["  continuation"]
      = [CompilerOutput.error "e0\n  continuation"] := by
  have h := c5_parser_state_machine
  have hw : state_transition "main.cpp(3): warning C4101: unused".data
      = some ParseState.inWarning :=
    (h.2.1 "main.cpp(3): warning C4101: unused".data "warning C4101: unused".data
      (by decide) (by decide)).1 (by decide)
  have he : state_transition "main.cpp(9): fatal error C1083: missing".data
      = some ParseState.inError :=
    (h.2.1 "main.cpp(9): fatal error C1083: missing".data
      "fatal error C1083: missing".data (by decide) (by decide)).2 (Or.inr (by decide))
  refine ⟨by simpa using h.1 "main.cpp" [], hw, he, ?_, ?_⟩
  · have hflush := (h.2.2.1 "w0" "main.cpp(9): fatal error C1083: missing" []
      ParseState.inError he).1
    rw [hflush]
    exact congrArg _ ((h.2.2.2.2 "main.cpp(9): fatal error C1083: missing").2.1)
  · have happ := (h.2.2.2.1 "e0" "  continuation" [] (by decide)).2
    rw [happ]
    exact (h.2.2.2.2 ("e0" ++ "\n" ++ "  continuation")).2.1

theorem recvLoop_cache_eq (outs : List CompilerOutput) :
    ∀ seen, (recvLoop outs seen).2.2 = outs.filterMap warnPayload := by
  induction outs with
  | nil => intro seen; rfl
  | cons o rest ih =>
    intro seen
    cases o with
    | begun l => simpa [recvLoop, warnPayload] using ih seen
    | warning s => simp [recvLoop, warnPayload, ih]
    | error s => simp [recvLoop, warnPayload, ih]

/-- C8: on a successful compile, the warning chunks of that compile's parsed
output are collected in order and serialised as
`\x7b"warnings": [chunk, ...]\x7d` to `<warning_cache>/<relative_src>.warnings`. -/
theorem c8_warning_cache_serialisation :
    ∀ (env : BuildEnv) (src : FsPath) (lines : List String) (seen : List String)
      (success : Bool), success = true →
      (run_guaranteed_warning_write env src lines seen success).1.1
          = get_artifact_path env.srcDirPath env.warningCachePath src "warnings"
      ∧ (run_guaranteed_warning_write env src lines seen success).1.2
          = warningCacheJson ((runParser lines).filterMap warnPayload)
      ∧ (run_guaranteed_warning_write env src lines seen success).2
          = Except.ok (get_artifact_path env.srcDirPath env.objsPath src "obj") := by
  intro env src lines seen success hs
  subst hs
  refine ⟨rfl, ?_, rfl⟩
  simp [run_guaranteed_warning_write, recvLoop_cache_eq]

/-- Closed instance of C8, by way of the theorem: one warning in the
transcript of `src/a.cpp`'s compile ends up, alone and JSON-escaped, in
`wc/a.warnings`. -/
theorem c8_warning_cache_serialisation_witness :
    (run_guaranteed_warning_write envUpToDate ["src", "a.cpp"]
        ["a.cpp", "a.cpp(1): warning C4101: x", "  note"] [] true).1.1
      = ["wc", "a.warnings"]
    ∧ (run_guaranteed_warning_write envUpToDate ["src", "a.cpp"]
        ["a.cpp", "a.cpp(1): warning C4101: x", "  note"] [] true).1.2
      = "\x7b\"warnings\":[\"a.cpp(1): warning C4101: x\\n  note\"]\x7d" := by
  have h := c8_warning_cache_serialisation envUpToDate ["src", "a.cpp"]
    ["a.cpp", "a.cpp(1): warning C4101: x", "  note"] [] true rfl
  refine ⟨h.1.trans (by decide), h.2.1.trans ?_⟩
  decide

theorem recvLoop_count_of_seen (outs : List CompilerOutput) :
    ∀ (seen : List String) (f : String), f ∈ seen →
      (recvLoop outs seen).1.countP (fun s => firstLine s == f) = 0 := by
  induction outs with
  | nil => intro seen f _; rfl
  | cons o rest ih =>
    intro seen f hf
    cases o with
    | begun l => simpa [recvLoop] using ih seen f hf
    | warning s =>
      by_cases hnew : firstLine s ∈ seen
      · simp [recvLoop, hnew, List.countP_cons, ih seen f hf]
      · have hne : (firstLine s == f) = false := by
          simp only [beq_eq_false_iff_ne, ne_eq]
          intro he; exact hnew (he ▸ hf)
        simp [recvLoop, hnew, List.countP_cons, hne,
          ih (firstLine s :: seen) f (List.mem_cons_of_mem _ hf)]
    | error s =>
      by_cases hnew : firstLine s ∈ seen
      · simp [recvLoop, hnew, List.countP_cons, ih seen f hf]
      · have hne : (firstLine s == f) = false := by
          simp only [beq_eq_false_iff_ne, ne_eq]
          intro he; exact hnew (he ▸ hf)
        simp [recvLoop, hnew, List.countP_cons, hne,
          ih (firstLine s :: seen) f (List.mem_cons_of_mem _ hf)]

/-- C9 (amended): display is deduplicated per first line — for a first line
not yet in the deduplicator set, exactly one chunk bearing it is displayed
when any warning/error chunk in the stream bears it (and none otherwise), and
for a first line already in the set nothing further is ever displayed. -/
theorem c9_displayed_once_per_first_line :
    ∀ (outs : List CompilerOutput) (seen : List String) (f : String),
      (f ∈ seen → (recvLoop outs seen).1.countP (fun s => firstLine s == f) = 0)
      ∧ (f ∉ seen →
          (recvLoop outs seen).1.countP (fun s => firstLine s == f)
            = if outs.any (fun o => (chunkPayload o).any (fun s => firstLine s == f))
              then 1 else 0) := by
  intro outs
  induction outs with
  | nil => intro seen f; exact ⟨fun _ => rfl, fun _ => rfl⟩
  | cons o rest ih =>
    intro seen f
    refine ⟨recvLoop_count_of_seen (o :: rest) seen f, fun hf => ?_⟩
    cases o with
    | begun l => simpa [recvLoop, chunkPayload] using (ih seen f).2 hf
    | warning s =>
      by_cases heq : firstLine s = f
      · subst heq
        simp only [recvLoop, if_pos hf, List.countP_cons, List.any_cons,
          chunkPayload, Option.any_some, beq_self_eq_true, Bool.true_or, if_true]
        rw [recvLoop_count_of_seen rest (firstLine s :: seen) (firstLine s)
          (List.mem_cons_self _ _)]
      · have hne : (firstLine s == f) = false := by
          simp only [beq_eq_false_iff_ne, ne_eq]; exact heq
        by_cases hnew : firstLine s ∈ seen
        · simp [recvLoop, hnew, List.countP_cons, hne, chunkPayload,
            (ih seen f).2 hf]
        · have hf2 : f ∉ firstLine s :: seen := by
            intro hm
            rcases List.mem_cons.mp hm with hm | hm
            · exact heq hm.symm
            · exact hf hm
          simp [recvLoop, hnew, List.countP_cons, hne, chunkPayload,
            (ih (firstLine s :: seen) f).2 hf2]
    | error s =>
      by_cases heq : firstLine s = f
      · subst heq
        simp only [recvLoop, if_pos hf, List.countP_cons, List.any_cons,
          chunkPayload, Option.any_some, beq_self_eq_true, Bool.true_or, if_true]
        rw [recvLoop_count_of_seen rest (firstLine s :: seen) (firstLine s)
          (List.mem_cons_self _ _)]
      · have hne : (firstLine s == f) = false := by
          simp only [beq_eq_false_iff_ne, ne_eq]; exact heq
        by_cases hnew : firstLine s ∈ seen
        · simp [recvLoop, hnew, List.countP_cons, hne, chunkPayload,
            (ih seen f).2 hf]
        · have hf2 : f ∉ firstLine s :: seen := by
            intro hm
            rcases List.mem_cons.mp hm with hm | hm
            · exact heq hm.symm
            · exact hf hm
          simp [recvLoop, hnew, List.countP_cons, hne, chunkPayload,
            (ih (firstLine s :: seen) f).2 hf2]

/-- C9 (counterexample): two distinct warning chunks sharing a first line —
only the first is ever displayed; the second distinct chunk is displayed zero
times, not once. -/
theorem c9_second_distinct_chunk_suppressed :
    (recvLoop [CompilerOutput.warning "x.cpp(1): warning C1: a\ndetail one",
               CompilerOutput.warning "x.cpp(1): warning C1: a\ndetail two"] []).1
      = ["x.cpp(1): warning C1: a\ndetail one"]
    ∧ ("x.cpp(1): warning C1: a\ndetail one" : String)
        ≠ "x.cpp(1): warning C1: a\ndetail two" := by
  refine ⟨by decide, by decide⟩

/-- Closed instance of the amended C9, by way of the theorem: across the two
same-first-line chunks exactly one display happens. -/
theorem c9_displayed_once_per_first_line_witness :
    (recvLoop [CompilerOutput.warning "x.cpp(1): warning C1: a\ndetail one",
               CompilerOutput.warning "x.cpp(1): warning C1: a\ndetail two"] []).1.countP
        (fun s => firstLine s == "x.cpp(1): warning C1: a") = 1 := by
  have h := (c9_displayed_once_per_first_line
    [CompilerOutput.warning "x.cpp(1): warning C1: a\ndetail one",
     CompilerOutput.warning "x.cpp(1): warning C1: a\ndetail two"] []
    "x.cpp(1): warning C1: a").2 (by simp)
  rw [h]
  decide

theorem lookupM_eq_none_iff (m : ProjMap) (n : String) :
    lookupM m n = none ↔ ∀ e ∈ m, e.1 ≠ n := by
  simp [lookupM, List.find?_eq_none]

theorem lookupM_mem (m : ProjMap) (n : String) (e0 : ProjEntry)
    (h : lookupM m n = some e0) : (n, e0) ∈ m := by
  simp only [lookupM, Option.map_eq_some'] at h
  obtain ⟨x, hx, hx2⟩ := h
  have hp := List.find?_some hx
  have hm := List.mem_of_find?_eq_some hx
  simp at hp
  have : x = (n, e0) := by
    cases x
    simp at hp hx2
    simp [hp, hx2]
  exact this ▸ hm

theorem lookupG_mem (g : Graph) (p : String) (c : ProjCfg)
    (h : lookupG g p = some c) : (p, c) ∈ g := by
  simp only [lookupG, Option.map_eq_some'] at h
  obtain ⟨x, hx, hx2⟩ := h
  have hp := List.find?_some hx
  have hm := List.mem_of_find?_eq_some hx
  simp at hp
  have : x = (p, c) := by
    cases x
    simp at hp hx2
    simp [hp, hx2]
  exact this ▸ hm

theorem insertM_eq_append (m : ProjMap) (n : String) (e : ProjEntry)
    (h : lookupM m n = none) : insertM m n e = m ++ [(n, e)] := by
  induction m with
  | nil => rfl
  | cons kv rest ih =>
    have hk : kv.1 ≠ n := (lookupM_eq_none_iff _ n).mp h kv (List.mem_cons_self _ _)
    have hrest : lookupM rest n = none := by
      rw [lookupM_eq_none_iff]
      intro x hx
      exact (lookupM_eq_none_iff _ n).mp h x (List.mem_cons_of_mem _ hx)
    cases kv
    simp only [insertM, if_neg hk, ih hrest, List.cons_append]

theorem keys_insertM_found (m : ProjMap) (n : String) (e0 e : ProjEntry) :
    lookupM m n = some e0 →
    (insertM m n e).map (fun x => x.1) = m.map (fun x => x.1) := by
  induction m with
  | nil => intro h; simp [lookupM] at h
  | cons kv rest ih =>
    intro h
    by_cases hk : kv.1 = n
    · cases kv
      simp only at hk
      subst hk
      simp [insertM]
    · cases kv with
      | mk k v =>
        simp only at hk
        have hrest : lookupM rest n = some e0 := by
          simpa [lookupM, List.find?, hk] using h
        simp [insertM, hk, ih hrest]

theorem msum_insertM_found (m : ProjMap) (n : String) (e0 : ProjEntry) :
    lookupM m n = some e0 →
    msum (insertM m n { e0 with refCount := e0.refCount + 1 }) = msum m + 1 := by
  induction m with
  | nil => intro h; simp [lookupM] at h
  | cons kv rest ih =>
    intro h
    cases kv with
    | mk k v =>
      by_cases hk : k = n
      · subst hk
        have hv : v = e0 := by
          simpa [lookupM, List.find?] using h
        subst hv
        simp [insertM, msum]
        omega
      · have hrest : lookupM rest n = some e0 := by
          simpa [lookupM, List.find?, hk] using h
        simp only [insertM, if_neg hk, msum, List.map_cons, List.sum_cons]
        have := ih hrest
        simp only [msum] at this
        omega

theorem mem_insertM (m : ProjMap) (n : String) (e : ProjEntry) (x : String × ProjEntry)
    (hx : x ∈ insertM m n e) : x = (n, e) ∨ x ∈ m := by
  induction m with
  | nil => simpa [insertM] using hx
  | cons kv rest ih =>
    cases kv with
    | mk k v =>
      by_cases hk : k = n
      · subst hk
        simp only [insertM, if_pos rfl] at hx
        rcases List.mem_cons.mp hx with h | h
        · exact Or.inl h
        · exact Or.inr (List.mem_cons_of_mem _ h)
      · simp only [insertM, if_neg hk] at hx
        rcases List.mem_cons.mp hx with h | h
        · exact Or.inr (h ▸ List.mem_cons_self _ _)
        · rcases ih h with h2 | h2
          · exact Or.inl h2
          · exact Or.inr (List.mem_cons_of_mem _ h2)

theorem keys_updateDepNames (m : ProjMap) (n : String) (ns : List String) :
    (updateDepNames m n ns).map (fun x => x.1) = m.map (fun x => x.1) := by
  induction m with
  | nil => rfl
  | cons kv rest ih =>
    cases kv with
    | mk k v =>
      by_cases hk : k = n
      · simp [updateDepNames, hk]
      · simp [updateDepNames, hk, ih]

theorem msum_updateDepNames (m : ProjMap) (n : String) (ns : List String) :
    msum (updateDepNames m n ns) = msum m := by
  induction m with
  | nil => rfl
  | cons kv rest ih =>
    cases kv with
    | mk k v =>
      by_cases hk : k = n
      · simp [updateDepNames, hk, msum]
      · simp only [updateDepNames, if_neg hk, msum, List.map_cons, List.sum_cons]
        simp only [msum] at ih
        omega

theorem mem_updateDepNames (m : ProjMap) (n : String) (ns : List String)
    (x : String × ProjEntry) (hx : x ∈ updateDepNames m n ns) :
    ∃ y ∈ m, x.1 = y.1 ∧ x.2.path = y.2.path ∧ x.2.refCount = y.2.refCount := by
  induction m with
  | nil => cases hx
  | cons kv rest ih =>
    cases kv with
    | mk k v =>
      by_cases hk : k = n
      · simp only [updateDepNames, if_pos hk] at hx
        rcases List.mem_cons.mp hx with h | h
        · exact ⟨(k, v), List.mem_cons_self _ _, by simp [h]⟩
        · exact ⟨x, List.mem_cons_of_mem _ h, rfl, rfl, rfl⟩
      · simp only [updateDepNames, if_neg hk] at hx
        rcases List.mem_cons.mp hx with h | h
        · exact ⟨(k, v), List.mem_cons_self _ _, by simp [h]⟩
        · obtain ⟨y, hy, h1, h2, h3⟩ := ih h
          exact ⟨y, List.mem_cons_of_mem _ hy, h1, h2, h3⟩

theorem msum_le_of_inv (g : Graph) (m : ProjMap) (h : mapInv g m) :
    msum m ≤ 100 * namesBound g := by
  obtain ⟨hnd, hent⟩ := h
  have h1 : msum m ≤ m.length * 100 := by
    have := List.sum_le_card_nsmul (m.map (fun e => e.2.refCount)) 100 ?_
    · simpa using this
    · intro x hx
      obtain ⟨e, he, rfl⟩ := List.mem_map.mp hx
      exact (hent e he).1
  have h2 : m.length ≤ namesBound g := by
    have hcard : (m.map (fun e => e.1)).toFinset.card = m.length := by
      rw [List.toFinset_card_of_nodup hnd]
      simp
    have hsub : (m.map (fun e => e.1)).toFinset ⊆ (g.map (fun x => x.2.name)).toFinset := by
      intro n hn
      rw [List.mem_toFinset] at hn ⊢
      obtain ⟨e, he, rfl⟩ := List.mem_map.mp hn
      exact (hent e he).2
    have := Finset.card_le_card hsub
    rw [hcard, List.card_toFinset] at this
    exact this
  calc msum m ≤ m.length * 100 := h1
    _ ≤ namesBound g * 100 := Nat.mul_le_mul_right _ h2
    _ = 100 * namesBound g := Nat.mul_comm _ _

theorem insert_bump (g : Graph) (m : ProjMap) (d : String) (dcfg : ProjCfg)
    (e0 : ProjEntry)
    (hG : lookupG g d = some dcfg)
    (he0 : lookupM m dcfg.name = some e0
      ∨ (lookupM m dcfg.name = none ∧ e0 = ⟨d, 0, []⟩))
    (hrc : e0.refCount + 1 ≤ 100) :
    (mapInv g m →
      mapInv g (insertM m dcfg.name { e0 with refCount := e0.refCount + 1 })
      ∧ msum (insertM m dcfg.name { e0 with refCount := e0.refCount + 1 })
          = msum m + 1)
    ∧ (mapNamesOk g m →
        mapNamesOk g (insertM m dcfg.name { e0 with refCount := e0.refCount + 1 })) := by
  have hname : dcfg.name ∈ g.map (fun x => x.2.name) := by
    exact List.mem_map.mpr ⟨(d, dcfg), lookupG_mem g d dcfg hG, rfl⟩
  constructor
  · intro hInv
    obtain ⟨hnd, hent⟩ := hInv
    constructor
    · constructor
      · rcases he0 with hl | ⟨hl, _⟩
        · rw [keys_insertM_found m dcfg.name e0 _ hl]
          exact hnd
        · rw [insertM_eq_append m dcfg.name _ hl]
          rw [List.map_append]
          refine List.Nodup.append hnd (by simp) ?_
          intro n hn hn2
          simp at hn2
          subst hn2
          obtain ⟨e, he, hne⟩ := List.mem_map.mp hn
          exact (lookupM_eq_none_iff m dcfg.name).mp hl e he hne
      · intro x hx
        rcases mem_insertM m dcfg.name _ x hx with rfl | hx2
        · exact ⟨hrc, hname⟩
        · exact hent x hx2
    · rcases he0 with hl | ⟨hl, he⟩
      · exact msum_insertM_found m dcfg.name e0 hl
      · rw [insertM_eq_append m dcfg.name _ hl]
        simp [msum, he]
  · intro hN
    intro x hx
    rcases mem_insertM m dcfg.name _ x hx with rfl | hx2
    · rcases he0 with hl | ⟨hl, he⟩
      · have := hN (dcfg.name, e0) (lookupM_mem m dcfg.name e0 hl)
        simpa using this
      · subst he
        exact ⟨dcfg, hG, rfl⟩
    · exact hN x hx2

theorem updateDepNames_preserves (g : Graph) (m : ProjMap) (n : String)
    (ns : List String) :
    (mapInv g m → mapInv g (updateDepNames m n ns))
    ∧ msum (updateDepNames m n ns) = msum m
    ∧ (mapNamesOk g m → mapNamesOk g (updateDepNames m n ns)) := by
  refine ⟨fun hInv => ⟨?_, ?_⟩, msum_updateDepNames m n ns, fun hN x hx => ?_⟩
  · rw [keys_updateDepNames]
    exact hInv.1
  · intro x hx
    obtain ⟨y, hy, h1, h2, h3⟩ := mem_updateDepNames m n ns x hx
    have := hInv.2 y hy
    rw [h1, h3]
    exact this
  · obtain ⟨y, hy, h1, h2, h3⟩ := mem_updateDepNames m n ns x hx
    obtain ⟨c, hc1, hc2⟩ := hN y hy
    exact ⟨c, h2 ▸ hc1, h1 ▸ hc2⟩

theorem accum_preserves (g : Graph) :
    ∀ fuel : Nat,
      (∀ (m : ProjMap) (p : String) (c : ProjCfg) (m' : ProjMap),
        accumDeps g fuel m p c = some (Except.ok m') →
        (mapInv g m → mapInv g m' ∧ msum m ≤ msum m')
        ∧ (mapNamesOk g m → mapNamesOk g m'))
      ∧ (∀ (ds : List String) (m : ProjMap) (names : List String)
          (r : ProjMap × List String),
        accumLoopF g (accumDeps g fuel) m ds names = some (Except.ok r) →
        (mapInv g m → mapInv g r.1 ∧ msum m ≤ msum r.1)
        ∧ (mapNamesOk g m → mapNamesOk g r.1)) := by
  intro fuel
  induction fuel with
  | zero =>
    constructor
    · intro m p c m' h
      simp [accumDeps] at h
    · intro ds
      induction ds with
      | nil =>
        intro m names r h
        simp only [accumLoopF, Option.some.injEq, Except.ok.injEq] at h
        subst h
        exact ⟨fun hInv => ⟨hInv, Nat.le_refl _⟩, fun hN => hN⟩
      | cons d ds ihds =>
        intro m names r h
        simp only [accumLoopF] at h
        cases hG : lookupG g d with
        | none => simp [hG] at h
        | some dcfg =>
          simp only [hG] at h
          split at h
          · simp at h
          · split at h
            · simp at h
            · split at h
              · simp [accumDeps] at h
              · simp at h
              · simp [accumDeps] at *
  | succ f ih =>
    have hdeps : ∀ (m : ProjMap) (p : String) (c : ProjCfg) (m' : ProjMap),
        accumDeps g (f + 1) m p c = some (Except.ok m') →
        (mapInv g m → mapInv g m' ∧ msum m ≤ msum m')
        ∧ (mapNamesOk g m → mapNamesOk g m') := by
      intro m p c m' h
      simp only [accumDeps] at h
      split at h
      · simp at h
      · split at h
        · simp at h
        · cases hloop : accumLoopF g (accumDeps g f) m c.deps [] with
          | none => rw [hloop] at h; simp at h
          | some exc =>
            rw [hloop] at h
            cases exc with
            | error e => simp at h
            | ok r =>
              simp only [Option.some.injEq, Except.ok.injEq] at h
              subst h
              have hr := ih.2 c.deps m [] r hloop
              have hu := updateDepNames_preserves g r.1 c.name r.2
              refine ⟨fun hInv => ?_, fun hN => hu.2.2 ((hr.2) hN)⟩
              obtain ⟨hInv1, hle⟩ := hr.1 hInv
              exact ⟨hu.1 hInv1, by rw [hu.2.1]; exact hle⟩
    refine ⟨hdeps, ?_⟩
    intro ds
    induction ds with
    | nil =>
      intro m names r h
      simp only [accumLoopF, Option.some.injEq, Except.ok.injEq] at h
      subst h
      exact ⟨fun hInv => ⟨hInv, Nat.le_refl _⟩, fun hN => hN⟩
    | cons d ds ihds =>
      intro m names r h
      simp only [accumLoopF] at h
      cases hG : lookupG g d with
      | none => simp [hG] at h
      | some dcfg =>
        simp only [hG] at h
        cases hl : lookupM m dcfg.name with
        | some e0 =>
          simp only [hl] at h
          split at h
          · simp at h
          · rename_i hrc
            split at h
            · simp at h
            · split at h
              · simp at h
              · simp at h
              · rename_i m3 hrec
                have hbump := insert_bump g m d dcfg e0 hG (Or.inl hl) (by omega)
                have hstep := hdeps _ d dcfg m3 hrec
                have hrest := ihds _ _ r h
                constructor
                · intro hInv
                  obtain ⟨hInv2, hms2⟩ := hbump.1 hInv
                  obtain ⟨hInv3, hle3⟩ := hstep.1 hInv2
                  obtain ⟨hInv4, hle4⟩ := hrest.1 hInv3
                  exact ⟨hInv4, by omega⟩
                · intro hN
                  exact hrest.2 (hstep.2 (hbump.2 hN))
        | none =>
          simp only [hl] at h
          split at h
          · simp at h
          · rename_i hrc
            split at h
            · simp at h
            · split at h
              · simp at h
              · simp at h
              · rename_i m3 hrec
                have hbump := insert_bump g m d dcfg ⟨d, 0, []⟩ hG
                  (Or.inr ⟨hl, rfl⟩) (by norm_num)
                have hstep := hdeps _ d dcfg m3 hrec
                have hrest := ihds _ _ r h
                constructor
                · intro hInv
                  have hInv2 : mapInv g (insertM m dcfg.name
                      { path := d, refCount := 0 + 1, depNames := [] }) :=
                    (hbump.1 hInv).1
                  have hms2 : msum (insertM m dcfg.name
                      { path := d, refCount := 0 + 1, depNames := [] }) = msum m + 1 :=
                    (hbump.1 hInv).2
                  obtain ⟨hInv3, hle3⟩ := hstep.1 hInv2
                  obtain ⟨hInv4, hle4⟩ := hrest.1 hInv3
                  exact ⟨hInv4, by omega⟩
                · intro hN
                  have hN2 : mapNamesOk g (insertM m dcfg.name
                      { path := d, refCount := 0 + 1, depNames := [] }) :=
                    hbump.2 hN
                  exact hrest.2 (hstep.2 hN2)

theorem accum_no_fuel_exhaustion (g : Graph) :
    ∀ fuel : Nat,
      (∀ (m : ProjMap) (p : String) (c : ProjCfg),
        mapInv g m → 100 * namesBound g < fuel + msum m →
        accumDeps g fuel m p c ≠ none)
      ∧ (∀ (ds : List String) (m : ProjMap) (names : List String),
        mapInv g m → 100 * namesBound g < fuel + msum m + 1 →
        accumLoopF g (accumDeps g fuel) m ds names ≠ none) := by
  intro fuel
  induction fuel with
  | zero =>
    constructor
    · intro m p c hInv hbound
      have hle := msum_le_of_inv g m hInv
      omega
    · intro ds
      induction ds with
      | nil =>
        intro m names hInv hbound
        simp [accumLoopF]
      | cons d ds ihds =>
        intro m names hInv hbound hnone
        simp only [accumLoopF] at hnone
        cases hG : lookupG g d with
        | none => simp [hG] at hnone
        | some dcfg =>
          simp only [hG] at hnone
          cases hl : lookupM m dcfg.name with
          | some e0 =>
            simp only [hl, accumDeps] at hnone
            split at hnone
            · simp at hnone
            · rename_i hrc
              split at hnone
              · simp at hnone
              · have hbump := insert_bump g m d dcfg e0 hG (Or.inl hl) (by omega)
                have hle := msum_le_of_inv g _ ((hbump.1 hInv).1)
                have hms := (hbump.1 hInv).2
                omega
          | none =>
            simp only [hl, accumDeps] at hnone
            split at hnone
            · simp at hnone
            · rename_i hrc
              split at hnone
              · simp at hnone
              · have hbump := insert_bump g m d dcfg ⟨d, 0, []⟩ hG
                  (Or.inr ⟨hl, rfl⟩) (by norm_num)
                have hInv2 : mapInv g (insertM m dcfg.name
                    { path := d, refCount := 0 + 1, depNames := [] }) :=
                  (hbump.1 hInv).1
                have hms : msum (insertM m dcfg.name
                    { path := d, refCount := 0 + 1, depNames := [] }) = msum m + 1 :=
                  (hbump.1 hInv).2
                have hle := msum_le_of_inv g _ hInv2
                omega
  | succ f ih =>
    have hdepsA : ∀ (m : ProjMap) (p : String) (c : ProjCfg),
        mapInv g m → 100 * namesBound g < (f + 1) + msum m →
        accumDeps g (f + 1) m p c ≠ none := by
      intro m p c hInv hbound hnone
      simp only [accumDeps] at hnone
      split at hnone
      · simp at hnone
      · split at hnone
        · simp at hnone
        · cases hloop : accumLoopF g (accumDeps g f) m c.deps [] with
          | none => exact ih.2 c.deps m [] hInv (by omega) hloop
          | some exc =>
            rw [hloop] at hnone
            cases exc with
            | error e => simp at hnone
            | ok r => simp at hnone
    refine ⟨hdepsA, ?_⟩
    intro ds
    induction ds with
    | nil =>
      intro m names hInv hbound
      simp [accumLoopF]
    | cons d ds ihds =>
      intro m names hInv hbound hnone
      simp only [accumLoopF] at hnone
      cases hG : lookupG g d with
      | none => simp [hG] at hnone
      | some dcfg =>
        simp only [hG] at hnone
        cases hl : lookupM m dcfg.name with
        | some e0 =>
          simp only [hl] at hnone
          split at hnone
          · simp at hnone
          · rename_i hrc
            split at hnone
            · simp at hnone
            · split at hnone
              · rename_i heq
                have hbump := insert_bump g m d dcfg e0 hG (Or.inl hl) (by omega)
                exact hdepsA _ d dcfg (hbump.1 hInv).1
                  (by have := (hbump.1 hInv).2; omega) heq
              · simp at hnone
              · rename_i m3 heq
                have hbump := insert_bump g m d dcfg e0 hG (Or.inl hl) (by omega)
                have hstep := (accum_preserves g (f + 1)).1 _ d dcfg m3 heq
                have hInv3 := (hstep.1 (hbump.1 hInv).1).1
                have hle3 := (hstep.1 (hbump.1 hInv).1).2
                have hms := (hbump.1 hInv).2
                exact ihds m3 _ hInv3 (by omega) hnone
        | none =>
          simp only [hl] at hnone
          split at hnone
          · simp at hnone
          · rename_i hrc
            split at hnone
            · simp at hnone
            · split at hnone
              · rename_i heq
                have hbump := insert_bump g m d dcfg ⟨d, 0, []⟩ hG
                  (Or.inr ⟨hl, rfl⟩) (by norm_num)
                have hInv2 : mapInv g (insertM m dcfg.name
                    { path := d, refCount := 0 + 1, depNames := [] }) :=
                  (hbump.1 hInv).1
                have hms : msum (insertM m dcfg.name
                    { path := d, refCount := 0 + 1, depNames := [] }) = msum m + 1 :=
                  (hbump.1 hInv).2
                exact hdepsA _ d dcfg hInv2 (by omega) heq
              · simp at hnone
              · rename_i m3 heq
                have hbump := insert_bump g m d dcfg ⟨d, 0, []⟩ hG
                  (Or.inr ⟨hl, rfl⟩) (by norm_num)
                have hInv2 : mapInv g (insertM m dcfg.name
                    { path := d, refCount := 0 + 1, depNames := [] }) :=
                  (hbump.1 hInv).1
                have hms : msum (insertM m dcfg.name
                    { path := d, refCount := 0 + 1, depNames := [] }) = msum m + 1 :=
                  (hbump.1 hInv).2
                have hstep := (accum_preserves g (f + 1)).1 _ d dcfg m3 heq
                have hInv3 := (hstep.1 hInv2).1
                have hle3 := (hstep.1 hInv2).2
                exact ihds m3 _ hInv3 (by omega) hnone

theorem accum_ok_acyclic (g : Graph) :
    ∀ fuel : Nat,
      (∀ (m : ProjMap) (p : String) (c : ProjCfg) (m' : ProjMap),
        lookupG g p = some c →
        accumDeps g fuel m p c = some (Except.ok m') →
        ∀ q, Relation.ReflTransGen (edgeG g) p q →
          ¬ Relation.TransGen (edgeG g) q q)
      ∧ (∀ (ds : List String) (m : ProjMap) (names : List String)
          (r : ProjMap × List String),
        accumLoopF g (accumDeps g fuel) m ds names = some (Except.ok r) →
        ∀ d ∈ ds, ∀ q, Relation.ReflTransGen (edgeG g) d q →
          ¬ Relation.TransGen (edgeG g) q q) := by
  intro fuel
  induction fuel with
  | zero =>
    constructor
    · intro m p c m' _ h
      simp [accumDeps] at h
    · intro ds
      induction ds with
      | nil =>
        intro m names r _ d hd
        cases hd
      | cons d ds ihds =>
        intro m names r h
        simp only [accumLoopF] at h
        cases hG : lookupG g d with
        | none => simp [hG] at h
        | some dcfg =>
          simp only [hG] at h
          split at h
          · simp at h
          · split at h
            · simp at h
            · split at h
              · simp [accumDeps] at h
              · simp at h
              · simp [accumDeps] at *
  | succ f ih =>
    have hdepsB : ∀ (m : ProjMap) (p : String) (c : ProjCfg) (m' : ProjMap),
        lookupG g p = some c →
        accumDeps g (f + 1) m p c = some (Except.ok m') →
        ∀ q, Relation.ReflTransGen (edgeG g) p q →
          ¬ Relation.TransGen (edgeG g) q q := by
      intro m p c m' hG h
      simp only [accumDeps] at h
      split at h
      · simp at h
      · split at h
        · simp at h
        · cases hloop : accumLoopF g (accumDeps g f) m c.deps [] with
          | none => rw [hloop] at h; simp at h
          | some exc =>
            rw [hloop] at h
            cases exc with
            | error e => simp at h
            | ok r =>
              have hfree := ih.2 c.deps m [] r hloop
              intro q hpq hcyc
              rcases Relation.ReflTransGen.cases_head hpq with rfl | ⟨d0, hpd0, hd0q⟩
              · obtain ⟨w, hpw, hwp⟩ := Relation.TransGen.head'_iff.mp hcyc
                obtain ⟨c', hc', hmem⟩ := hpw
                rw [hG] at hc'
                cases hc'
                exact hfree w hmem p hwp hcyc
              · obtain ⟨c', hc', hmem⟩ := hpd0
                rw [hG] at hc'
                cases hc'
                exact hfree d0 hmem q hd0q hcyc
    refine ⟨hdepsB, ?_⟩
    intro ds
    induction ds with
    | nil =>
      intro m names r _ d hd
      cases hd
    | cons d ds ihds =>
      intro m names r h
      simp only [accumLoopF] at h
      cases hG : lookupG g d with
      | none => simp [hG] at h
      | some dcfg =>
        simp only [hG] at h
        split at h
        · simp at h
        · split at h
          · simp at h
          · split at h
            · simp at h
            · simp at h
            · rename_i m3 heq
              intro d' hd' q hdq hcyc
              rcases List.mem_cons.mp hd' with rfl | hd2
              · exact hdepsB _ d' dcfg m3 hG heq q hdq hcyc
              · exact ihds _ _ r h d' hd2 q hdq hcyc

theorem accum_error_kind (g : Graph) (hWF : graphWF g) (hInj : graphNamesInj g) :
    ∀ fuel : Nat,
      (∀ (m : ProjMap) (p : String) (c : ProjCfg) (e : ResolveError),
        lookupG g p = some c → mapNamesOk g m →
        accumDeps g fuel m p c = some (Except.error e) → e = ResolveError.depLoop)
      ∧ (∀ (ds : List String) (m : ProjMap) (names : List String) (e : ResolveError),
        (∀ d ∈ ds, (lookupG g d).isSome) → mapNamesOk g m →
        accumLoopF g (accumDeps g fuel) m ds names = some (Except.error e) →
        e = ResolveError.depLoop) := by
  have hcollision : ∀ (m : ProjMap) (d : String) (dcfg : ProjCfg) (e0 : ProjEntry),
      lookupG g d = some dcfg → mapNamesOk g m →
      lookupM m dcfg.name = some e0 → e0.path = d := by
    intro m d dcfg e0 hG hN hl
    obtain ⟨c', hc', hcname⟩ := hN (dcfg.name, e0) (lookupM_mem m dcfg.name e0 hl)
    exact hInj (e0.path, c') (lookupG_mem g e0.path c' hc') (d, dcfg)
      (lookupG_mem g d dcfg hG) hcname
  intro fuel
  induction fuel with
  | zero =>
    constructor
    · intro m p c e _ _ h
      simp [accumDeps] at h
    · intro ds
      induction ds with
      | nil =>
        intro m names e _ _ h
        simp [accumLoopF] at h
      | cons d ds ihds =>
        intro m names e hds hN h
        simp only [accumLoopF] at h
        cases hG : lookupG g d with
        | none =>
          have := hds d (List.mem_cons_self d ds)
          rw [hG] at this
          simp at this
        | some dcfg =>
          simp only [hG] at h
          cases hl : lookupM m dcfg.name with
          | some e0 =>
            simp only [hl, accumDeps] at h
            split at h
            · simp at h
              exact h.symm
            · split at h
              · rename_i hne
                exact absurd (hcollision m d dcfg e0 hG hN hl).symm hne
              · simp at h
          | none =>
            simp only [hl, accumDeps] at h
            split at h
            · simp at h
              exact h.symm
            · split at h
              · rename_i hne
                exact absurd rfl hne
              · simp at h
  | succ f ih =>
    have hdepsC : ∀ (m : ProjMap) (p : String) (c : ProjCfg) (e : ResolveError),
        lookupG g p = some c → mapNamesOk g m →
        accumDeps g (f + 1) m p c = some (Except.error e) →
        e = ResolveError.depLoop := by
      intro m p c e hG hN h
      have hWFp := hWF (p, c) (lookupG_mem g p c hG)
      simp only [accumDeps] at h
      split at h
      · rename_i hcond
        rw [hWFp.1] at hcond
        simp at hcond
      · split at h
        · rename_i hcond
          rw [hWFp.2.1] at hcond
          simp at hcond
        · cases hloop : accumLoopF g (accumDeps g f) m c.deps [] with
          | none => rw [hloop] at h; simp at h
          | some exc =>
            rw [hloop] at h
            cases exc with
            | error e' =>
              simp only [Option.some.injEq, Except.error.injEq] at h
              subst h
              exact ih.2 c.deps m [] e' hWFp.2.2 hN hloop
            | ok r => simp at h
    refine ⟨hdepsC, ?_⟩
    intro ds
    induction ds with
    | nil =>
      intro m names e _ _ h
      simp [accumLoopF] at h
    | cons d ds ihds =>
      intro m names e hds hN h
      simp only [accumLoopF] at h
      cases hG : lookupG g d with
      | none =>
        have := hds d (List.mem_cons_self d ds)
        rw [hG] at this
        simp at this
      | some dcfg =>
        simp only [hG] at h
        cases hl : lookupM m dcfg.name with
        | some e0 =>
          simp only [hl] at h
          split at h
          · simp at h
            exact h.symm
          · rename_i hrc
            split at h
            · rename_i hne
              exact absurd (hcollision m d dcfg e0 hG hN hl).symm hne
            · split at h
              · simp at h
              · rename_i e' heq
                simp only [Option.some.injEq, Except.error.injEq] at h
                subst h
                have hbump := insert_bump g m d dcfg e0 hG (Or.inl hl)
                  (by simp at hrc; omega)
                exact hdepsC _ d dcfg e' hG (hbump.2 hN) heq
              · rename_i m3 heq
                have hbump := insert_bump g m d dcfg e0 hG (Or.inl hl)
                  (by simp at hrc; omega)
                have hstep := (accum_preserves g (f + 1)).1 _ d dcfg m3 heq
                exact ihds _ _ e (fun x hx => hds x (List.mem_cons_of_mem d hx))
                  (hstep.2 (hbump.2 hN)) h
        | none =>
          simp only [hl] at h
          split at h
          · simp at h
            exact h.symm
          · rename_i hrc
            split at h
            · rename_i hne
              exact absurd rfl hne
            · split at h
              · simp at h
              · rename_i e' heq
                simp only [Option.some.injEq, Except.error.injEq] at h
                subst h
                have hbump := insert_bump g m d dcfg ⟨d, 0, []⟩ hG
                  (Or.inr ⟨hl, rfl⟩) (by norm_num)
                have hN2 : mapNamesOk g (insertM m dcfg.name
                    { path := d, refCount := 0 + 1, depNames := [] }) :=
                  hbump.2 hN
                exact hdepsC _ d dcfg e' hG hN2 heq
              · rename_i m3 heq
                have hbump := insert_bump g m d dcfg ⟨d, 0, []⟩ hG
                  (Or.inr ⟨hl, rfl⟩) (by norm_num)
                have hN2 : mapNamesOk g (insertM m dcfg.name
                    { path := d, refCount := 0 + 1, depNames := [] }) :=
                  hbump.2 hN
                have hstep := (accum_preserves g (f + 1)).1 _ d dcfg m3 heq
                exact ihds _ _ e (fun x hx => hds x (List.mem_cons_of_mem d hx))
                  (hstep.2 hN2) h

/-- C4: on any manifest universe whose dependency graph has a cycle reachable
from the root, `accumulate_dependencies` terminates — the `resolveFuel` bound
on the embedding's fuel is never exhausted, because every recursive call first
bumps a reference count that is capped at 100 — and reports a fatal error
instead of succeeding; on a well-formed universe with injective project names
that error is exactly the reference-count-ceiling error
(`Loop found in dependency graph.`). -/
theorem c4_cycle_resolution_fails :
    ∀ (g : Graph) (r : String) (c : ProjCfg),
      lookupG g r = some c →
      cycleReachableFrom g r →
      (∃ e, accumDeps g (resolveFuel g) (initProjects r c) r c
          = some (Except.error e))
      ∧ (graphWF g → graphNamesInj g →
          accumDeps g (resolveFuel g) (initProjects r c) r c
            = some (Except.error ResolveError.depLoop)) := by
  intro g r c hG hcyc
  have hname : c.name ∈ g.map (fun x => x.2.name) :=
    List.mem_map.mpr ⟨(r, c), lookupG_mem g r c hG, rfl⟩
  have hInv : mapInv g (initProjects r c) := by
    constructor
    · simp [initProjects]
    · intro x hx
      simp only [initProjects, List.mem_singleton] at hx
      subst hx
      exact ⟨by norm_num, hname⟩
  have hmsum : msum (initProjects r c) = 1 := rfl
  have hA := (accum_no_fuel_exhaustion g (resolveFuel g)).1 (initProjects r c) r c
    hInv (by simp only [resolveFuel] at *; omega)
  cases hres : accumDeps g (resolveFuel g) (initProjects r c) r c with
  | none => exact absurd hres hA
  | some exc =>
    cases exc with
    | ok m' =>
      obtain ⟨q, hrq, hq⟩ := hcyc
      exact absurd hq ((accum_ok_acyclic g (resolveFuel g)).1 (initProjects r c) r c m'
        hG hres q hrq)
    | error e =>
      refine ⟨⟨e, rfl⟩, fun hWF hInj => ?_⟩
      have hNames : mapNamesOk g (initProjects r c) := by
        intro x hx
        simp only [initProjects, List.mem_singleton] at hx
        subst hx
        exact ⟨c, hG, rfl⟩
      have hkind := (accum_error_kind g hWF hInj (resolveFuel g)).1
        (initProjects r c) r c e hG hNames hres
      rw [hkind]

/-- Closed instance of C4, by way of the theorem: the two-project cycle
`a → b → a` is resolved to the reference-count-ceiling fatal error. -/
theorem c4_cycle_resolution_fails_witness :
    accumDeps gCycle (resolveFuel gCycle) (initProjects "a" cfgA) "a" cfgA
      = some (Except.error ResolveError.depLoop) := by
  have hcyc : cycleReachableFrom gCycle "a" := by
    refine ⟨"a", Relation.ReflTransGen.refl, ?_⟩
    have e1 : edgeG gCycle "a" "b" := ⟨⟨"a", ["b"]⟩, by decide, by decide⟩
    have e2 : edgeG gCycle "b" "a" := ⟨⟨"b", ["a"]⟩, by decide, by decide⟩
    exact Relation.TransGen.head e1 (Relation.TransGen.single e2)
  exact (c4_cycle_resolution_fails gCycle "a" cfgA (by decide) hcyc).2
    (by unfold graphWF; decide) (by unfold graphNamesInj; decide)
